import Mathlib

/-!
# A verification of the `gud-json-store` JSON file store

This file gives a shallow embedding of `src/JsonStore.ts` (the `JsonStore`
class and its helper `validateSerializable`) and proves properties of the
embedded operations.

The embedding models:
* JSON values (`Json`) with integer numerals (JS floats are out of scope);
* `JSON.stringify(data, null, 2)` (the exact pretty-printed text, including
  string escaping) as `stringifyJson`;
* `JSON.parse` as `parseJson` (a tokenizer and a token parser, both written
  with structural fuel so that they evaluate by `rfl`/`decide`);
* the filesystem as the two paths the store touches (`<path>` and
  `<path>.bak`) plus a log of `console.error` diagnostics;
* a zod schema as an abstract `safeParse` function `Json → Option Json`;
* each public method of `JsonStore` as a state-passing function.
-/

/-- A JSON value.  Numbers are modelled as integers: the store never
manipulates numerals itself, and IEEE-754 floating point is out of scope of
this embedding.  Objects are insertion-ordered association lists, exactly as
JavaScript objects are. -/
inductive Json where
  | null : Json
  | bool (b : Bool) : Json
  | num (n : Int) : Json
  | str (s : String) : Json
  | arr (elems : List Json) : Json
  | obj (entries : List (String × Json)) : Json
deriving Repr

/-! ## Character helpers -/

/-- JSON insignificant whitespace (the four characters `JSON.parse` skips). -/
def isWsChar (c : Char) : Bool :=
  c = ' ' || c = '\n' || c = '\t' || c = '\r'

def isDigitChar (c : Char) : Bool :=
  '0' ≤ c && c ≤ '9'

/-- Numeric value of a decimal digit character. -/
def digVal (c : Char) : Nat := c.toNat - '0'.toNat

/-- The decimal digit character for `n < 10`. -/
def digitChar (n : Nat) : Char := Char.ofNat ('0'.toNat + n)

/-- Lower-case hexadecimal digit character for `n < 16` (as produced by
JavaScript's `\u00xx` escapes). -/
def hexDigitChar (n : Nat) : Char :=
  if n < 10 then Char.ofNat ('0'.toNat + n) else Char.ofNat ('a'.toNat + n - 10)

/-- Numeric value of a hexadecimal digit character, if it is one. -/
def hexVal (c : Char) : Option Nat :=
  let n := c.toNat
  if 48 ≤ n ∧ n ≤ 57 then some (n - 48)
  else if 97 ≤ n ∧ n ≤ 102 then some (n - 87)
  else if 65 ≤ n ∧ n ≤ 70 then some (n - 55)
  else none

/-- `n` spaces, for pretty-printing indentation. -/
def sp (n : Nat) : List Char := List.replicate n ' '

/-! ## Decimal numerals -/

/-- Decimal digits of `n`, most significant first; `fuel` bounds the
recursion (any `fuel ≥ n` is exact). -/
def natChars (fuel : Nat) (n : Nat) : List Char :=
  match fuel with
  | 0 => []
  | f + 1 => if n < 10 then [digitChar n] else natChars f (n / 10) ++ [digitChar (n % 10)]

/-- The decimal numeral of an integer, as `String(n)` produces in JS. -/
def intChars (n : Int) : List Char :=
  if n < 0 then '-' :: natChars (n.natAbs + 1) n.natAbs else natChars (n.natAbs + 1) n.natAbs

/-- Value of a list of decimal digit characters, folded onto `acc`. -/
def digitsVal (acc : Nat) (ds : List Char) : Nat :=
  ds.foldl (fun a c => a * 10 + digVal c) acc

/-! ## String escaping (`QuoteJSONString` of `JSON.stringify`) -/

/-- Escape one character the way `JSON.stringify` quotes string contents. -/
def escC (c : Char) : List Char :=
  if c = '"' then ['\\', '"']
  else if c = '\\' then ['\\', '\\']
  else if c = '\n' then ['\\', 'n']
  else if c = '\t' then ['\\', 't']
  else if c = '\r' then ['\\', 'r']
  else if c = Char.ofNat 8 then ['\\', 'b']
  else if c = Char.ofNat 12 then ['\\', 'f']
  else if c.toNat < 32 then
    ['\\', 'u', '0', '0', hexDigitChar (c.toNat / 16), hexDigitChar (c.toNat % 16)]
  else [c]

def escChars : List Char → List Char
  | [] => []
  | c :: cs => escC c ++ escChars cs

/-! ## The pretty printer: `JSON.stringify(data, null, 2)`

`ind` is the current indentation width in spaces (2 per nesting level). -/

/-- Characters of the `null` keyword. -/
def nullChars : List Char := ['n', 'u', 'l', 'l']

/-- Characters of the `true` keyword. -/
def trueChars : List Char := ['t', 'r', 'u', 'e']

/-- Characters of the `false` keyword. -/
def falseChars : List Char := ['f', 'a', 'l', 's', 'e']

mutual

def jChars (ind : Nat) : Json → List Char
  | .null => nullChars
  | .bool true => trueChars
  | .bool false => falseChars
  | .num n => intChars n
  | .str s => '"' :: (escChars s.data ++ ['"'])
  | .arr [] => ['[', ']']
  | .arr (x :: xs) =>
    '[' :: '\n' :: (sp (ind + 2) ++ (jChars (ind + 2) x ++ (arrTail (ind + 2) xs ++ '\n' :: (sp ind ++ [']']))))
  | .obj [] => ['{', '}']
  | .obj ((k, v) :: xs) =>
    '{' :: '\n' :: (sp (ind + 2) ++ (fieldChars (ind + 2) k v ++ (objTail (ind + 2) xs ++ '\n' :: (sp ind ++ ['}']))))

def fieldChars (ind : Nat) (k : String) (v : Json) : List Char :=
  '"' :: (escChars k.data ++ '"' :: ':' :: ' ' :: jChars ind v)

def arrTail (ind : Nat) : List Json → List Char
  | [] => []
  | x :: xs => ',' :: '\n' :: (sp ind ++ (jChars ind x ++ arrTail ind xs))

def objTail (ind : Nat) : List (String × Json) → List Char
  | [] => []
  | (k, v) :: xs => ',' :: '\n' :: (sp ind ++ (fieldChars ind k v ++ objTail ind xs))

end

/-- `JSON.stringify(data, null, 2)` as used by `JsonStore.#save`. -/
def stringifyJson (v : Json) : String := ⟨jChars 0 v⟩

/-! ## Tokens and the tokenizer -/

inductive Tok where
  | lbrace | rbrace | lbrack | rbrack | colon | comma
  | tstr (s : List Char)
  | tnum (n : Int)
  | tbool (b : Bool)
  | tnull
deriving Repr, DecidableEq

/-- Decode a single-character escape (the character after a backslash),
for the escapes `JSON.parse` accepts other than `\u`. -/
def unescC (e : Char) : Option Char :=
  if e = '"' then some '"'
  else if e = '\\' then some '\\'
  else if e = '/' then some '/'
  else if e = 'n' then some '\n'
  else if e = 't' then some '\t'
  else if e = 'r' then some '\r'
  else if e = 'b' then some (Char.ofNat 8)
  else if e = 'f' then some (Char.ofNat 12)
  else none

/-- Lex a JSON string literal body (the part after the opening quote):
returns the decoded contents and the characters after the closing quote. -/
def lexStrChars : List Char → Option (List Char × List Char)
  | [] => none
  | c :: cs =>
    if c = '"' then some ([], cs)
    else if c = '\\' then
      match cs with
      | 'u' :: h1 :: h2 :: h3 :: h4 :: cs2 =>
        match hexVal h1, hexVal h2, hexVal h3, hexVal h4 with
        | some a, some b, some c1, some d =>
          (lexStrChars cs2).map (fun p => (Char.ofNat (((a * 16 + b) * 16 + c1) * 16 + d) :: p.1, p.2))
        | _, _, _, _ => none
      | e :: cs2 =>
        match unescC e with
        | some d => (lexStrChars cs2).map (fun p => (d :: p.1, p.2))
        | none => none
      | [] => none
    else (lexStrChars cs).map (fun p => (c :: p.1, p.2))

/-- Fueled tokenizer.  Every recursive call consumes at least one input
character, so `fuel > cs.length` makes the fuel irrelevant
(`tokenizeF_fuel`). -/
def tokenizeF (fuel : Nat) (cs : List Char) : Option (List Tok) :=
  match fuel with
  | 0 => none
  | f + 1 =>
    match cs with
    | [] => some []
    | c :: cs =>
      if isWsChar c then tokenizeF f cs
      else if c = '{' then (Tok.lbrace :: ·) <$> tokenizeF f cs
      else if c = '}' then (Tok.rbrace :: ·) <$> tokenizeF f cs
      else if c = '[' then (Tok.lbrack :: ·) <$> tokenizeF f cs
      else if c = ']' then (Tok.rbrack :: ·) <$> tokenizeF f cs
      else if c = ':' then (Tok.colon :: ·) <$> tokenizeF f cs
      else if c = ',' then (Tok.comma :: ·) <$> tokenizeF f cs
      else if c = '"' then
        match lexStrChars cs with
        | some (ct, rest) => (Tok.tstr ct :: ·) <$> tokenizeF f rest
        | none => none
      else if c = 't' then
        match cs with
        | 'r' :: 'u' :: 'e' :: cs' => (Tok.tbool true :: ·) <$> tokenizeF f cs'
        | _ => none
      else if c = 'f' then
        match cs with
        | 'a' :: 'l' :: 's' :: 'e' :: cs' => (Tok.tbool false :: ·) <$> tokenizeF f cs'
        | _ => none
      else if c = 'n' then
        match cs with
        | 'u' :: 'l' :: 'l' :: cs' => (Tok.tnull :: ·) <$> tokenizeF f cs'
        | _ => none
      else if c = '-' then
        match cs with
        | d :: cs' =>
          if isDigitChar d then
            (Tok.tnum (-(digitsVal (digVal d) (cs'.takeWhile isDigitChar) : Int)) :: ·) <$>
              tokenizeF f (cs'.dropWhile isDigitChar)
          else none
        | [] => none
      else if isDigitChar c then
        (Tok.tnum (digitsVal (digVal c) (cs.takeWhile isDigitChar) : Int) :: ·) <$>
          tokenizeF f (cs.dropWhile isDigitChar)
      else none

/-- Tokenize a character list (the fuel `cs.length + 1` is always enough). -/
def tokenize (cs : List Char) : Option (List Tok) := tokenizeF (cs.length + 1) cs

/-! ## The token parser (`JSON.parse` grammar) -/

/-- JS property assignment `o[k] = v` on an insertion-ordered object: an
existing key keeps its position and gets the new value, a new key is
appended. -/
def objAssign (l : List (String × Json)) (k : String) (v : Json) : List (String × Json) :=
  match l with
  | [] => [(k, v)]
  | (k', v') :: rest => if k' = k then (k', v) :: rest else (k', v') :: objAssign rest k v

/-- Build a JS object from a field list by successive property assignment
(duplicate keys: last value wins, first position kept), as `JSON.parse`
does. -/
def objFromEntries (l : List (String × Json)) : List (String × Json) :=
  l.foldl (fun acc p => objAssign acc p.1 p.2) []

mutual

/-- Fueled parser for one JSON value at the head of the token list. -/
def pValF (fuel : Nat) (ts : List Tok) : Option (Json × List Tok) :=
  match fuel with
  | 0 => none
  | f + 1 =>
    match ts with
    | Tok.tnull :: ts => some (.null, ts)
    | Tok.tbool b :: ts => some (.bool b, ts)
    | Tok.tnum n :: ts => some (.num n, ts)
    | Tok.tstr s :: ts => some (.str ⟨s⟩, ts)
    | Tok.lbrack :: Tok.rbrack :: ts => some (.arr [], ts)
    | Tok.lbrack :: ts => (pItemsF f ts).map (fun p => (.arr p.1, p.2))
    | Tok.lbrace :: Tok.rbrace :: ts => some (.obj [], ts)
    | Tok.lbrace :: ts => (pFieldsF f ts).map (fun p => (.obj (objFromEntries p.1), p.2))
    | _ => none

/-- Fueled parser for a non-empty comma-separated item list followed by `]`. -/
def pItemsF (fuel : Nat) (ts : List Tok) : Option (List Json × List Tok) :=
  match fuel with
  | 0 => none
  | f + 1 =>
    match pValF f ts with
    | some (v, Tok.comma :: r) => (pItemsF f r).map (fun p => (v :: p.1, p.2))
    | some (v, Tok.rbrack :: r) => some ([v], r)
    | _ => none

/-- Fueled parser for a non-empty field list followed by `}`. -/
def pFieldsF (fuel : Nat) (ts : List Tok) : Option (List (String × Json) × List Tok) :=
  match fuel with
  | 0 => none
  | f + 1 =>
    match ts with
    | Tok.tstr k :: Tok.colon :: ts' =>
      match pValF f ts' with
      | some (v, Tok.comma :: r) => (pFieldsF f r).map (fun p => ((⟨k⟩, v) :: p.1, p.2))
      | some (v, Tok.rbrace :: r) => some ([(⟨k⟩, v)], r)
      | _ => none
    | _ => none

end

/-- Parse one JSON value from a token list (fuel `2 * ts.length + 2` covers
any token list the grammar accepts). -/
def parseToks (ts : List Tok) : Option (Json × List Tok) := pValF (2 * ts.length + 2) ts

/-- `JSON.parse`: tokenize, parse one value, and require the input to be
exhausted. -/
def parseJson (s : String) : Option Json :=
  match tokenize s.data with
  | none => none
  | some ts =>
    match parseToks ts with
    | some (v, []) => some v
    | _ => none

/-! ### Sanity checks on concrete inputs -/

example : parseJson "\x7b invalid json \x7d" = none := rfl

example : parseJson "\x7b\"a\": 1, \"b\": [true, null]\x7d" =
    some (.obj [("a", .num 1), ("b", .arr [.bool true, .null])]) := rfl

example : stringifyJson (.obj [("a", .num 1), ("b", .arr [.bool true, .null])]) =
    "\x7b\n  \"a\": 1,\n  \"b\": [\n    true,\n    null\n  ]\n\x7d" := by
  simp [stringifyJson, jChars, arrTail, objTail, fieldChars, escChars, escC, intChars, natChars,
    sp, digitChar, nullChars, trueChars, falseChars]

example : parseJson "\x7b\n  \"a\": -12,\n  \"b\": \"x\\\"\\\\y\\n\"\n\x7d" =
    some (.obj [("a", .num (-12)), ("b", .str "x\"\\y\n")]) := rfl

/-! ## The token image of a value and well-formedness -/

mutual

/-- The token stream of the pretty-printed text of a value. -/
def jToks : Json → List Tok
  | .null => [Tok.tnull]
  | .bool b => [Tok.tbool b]
  | .num n => [Tok.tnum n]
  | .str s => [Tok.tstr s.data]
  | .arr [] => [Tok.lbrack, Tok.rbrack]
  | .arr (x :: xs) => Tok.lbrack :: (jToks x ++ (arrToksTail xs ++ [Tok.rbrack]))
  | .obj [] => [Tok.lbrace, Tok.rbrace]
  | .obj ((k, v) :: xs) =>
    Tok.lbrace :: Tok.tstr k.data :: Tok.colon :: (jToks v ++ (objToksTail xs ++ [Tok.rbrace]))

def arrToksTail : List Json → List Tok
  | [] => []
  | x :: xs => Tok.comma :: (jToks x ++ arrToksTail xs)

def objToksTail : List (String × Json) → List Tok
  | [] => []
  | (k, v) :: xs => Tok.comma :: Tok.tstr k.data :: Tok.colon :: (jToks v ++ objToksTail xs)

end

/-- No string occurs twice in the list (object keys are unique). -/
def distinctKeys : List String → Bool
  | [] => true
  | k :: ks => !(ks.contains k) && distinctKeys ks

mutual

/-- Well-formedness of a `Json` value as the image of a JavaScript runtime
value: every object has pairwise distinct keys.  (A JS object cannot have
two properties with the same name.) -/
def wfJ : Json → Bool
  | .null => true
  | .bool _ => true
  | .num _ => true
  | .str _ => true
  | .arr l => wfArr l
  | .obj l => distinctKeys (l.map Prod.fst) && wfObj l

def wfArr : List Json → Bool
  | [] => true
  | x :: xs => wfJ x && wfArr xs

def wfObj : List (String × Json) → Bool
  | [] => true
  | (_, v) :: xs => wfJ v && wfObj xs

end

/-! ## Fuel irrelevance for the tokenizer -/

theorem lexStrChars_length : ∀ cs ct rest, lexStrChars cs = some (ct, rest) →
    rest.length < cs.length := by
  intro cs
  induction cs using lexStrChars.induct with
  | case1 => intro ct rest h; cases h
  | case2 cs =>
    intro ct rest h
    rw [lexStrChars.eq_def] at h
    simp only [reduceIte, Char.reduceEq] at h
    cases h
    simp
  | case3 h1 h2 h3 h4 cs2 a b c1 d e4 e3 e2 e1 hne ih =>
    intro ct rest h
    rw [lexStrChars.eq_def] at h
    simp only [reduceIte, Char.reduceEq, e1, e2, e3, e4] at h
    rcases Option.map_eq_some'.mp h with ⟨⟨p1, p2⟩, hp, h2⟩
    cases h2
    have := ih _ _ hp
    simp only [List.length_cons]
    omega
  | case4 h1 h2 h3 h4 cs2 hfail hne =>
    intro ct rest h
    rw [lexStrChars.eq_def] at h
    simp only [reduceIte, Char.reduceEq] at h
    cases h
  | case5 e cs2 hnu d hd hne ih =>
    intro ct rest h
    rw [lexStrChars.eq_def] at h
    simp only [reduceIte, Char.reduceEq] at h
    rw [hd] at h
    rcases Option.map_eq_some'.mp h with ⟨⟨p1, p2⟩, hp, h2⟩
    cases h2
    have := ih _ _ hp
    simp only [List.length_cons]
    omega
  | case6 e cs2 hnu hd hne =>
    intro ct rest h
    rw [lexStrChars.eq_def] at h
    simp only [reduceIte, Char.reduceEq] at h
    rw [hd] at h
    cases h
  | case7 hne =>
    intro ct rest h
    rw [lexStrChars.eq_def] at h
    simp at h
  | case8 c cs hq hb ih =>
    intro ct rest h
    rw [lexStrChars.eq_def] at h
    simp only [reduceIte, Char.reduceEq, if_neg hq, if_neg hb] at h
    rcases Option.map_eq_some'.mp h with ⟨⟨p1, p2⟩, hp, h2⟩
    cases h2
    have := ih _ _ hp
    simp only [List.length_cons]
    omega

theorem tokenizeF_fuel : ∀ f1 cs f2, cs.length < f1 → cs.length < f2 →
    tokenizeF f1 cs = tokenizeF f2 cs := by
  intro f1 cs
  induction f1, cs using tokenizeF.induct with
  | case1 cs => intro f2 h1 h2; omega
  | case2 f =>
    intro f2 h1 h2
    cases f2 with
    | zero => omega
    | succ g => rfl
  | case3 f c cs hw ih =>
    intro f2 h1 h2
    cases f2 with
    | zero => omega
    | succ g =>
      have hrec := ih g (by simp at h1; omega) (by simp at h2; omega)
      clear ih
      simp [tokenizeF, hrec, *]
  | case4 f cs hw ih =>
    intro f2 h1 h2
    cases f2 with
    | zero => omega
    | succ g =>
      have hrec := ih g (by simp at h1; omega) (by simp at h2; omega)
      clear ih
      simp [tokenizeF, hrec, *]
  | case5 f cs hw hne ih =>
    intro f2 h1 h2
    cases f2 with
    | zero => omega
    | succ g =>
      have hrec := ih g (by simp at h1; omega) (by simp at h2; omega)
      clear ih
      simp [tokenizeF, hrec, *]
  | case6 f cs hw h1' h2' ih =>
    intro f2 h1 h2
    cases f2 with
    | zero => omega
    | succ g =>
      have hrec := ih g (by simp at h1; omega) (by simp at h2; omega)
      clear ih
      simp [tokenizeF, hrec, *]
  | case7 f cs hw h1' h2' h3' ih =>
    intro f2 h1 h2
    cases f2 with
    | zero => omega
    | succ g =>
      have hrec := ih g (by simp at h1; omega) (by simp at h2; omega)
      clear ih
      simp [tokenizeF, hrec, *]
  | case8 f cs hw h1' h2' h3' h4' ih =>
    intro f2 h1 h2
    cases f2 with
    | zero => omega
    | succ g =>
      have hrec := ih g (by simp at h1; omega) (by simp at h2; omega)
      clear ih
      simp [tokenizeF, hrec, *]
  | case9 f cs hw h1' h2' h3' h4' h5' ih =>
    intro f2 h1 h2
    cases f2 with
    | zero => omega
    | succ g =>
      have hrec := ih g (by simp at h1; omega) (by simp at h2; omega)
      clear ih
      simp [tokenizeF, hrec, *]
  | case10 f cs ct rest hm hws h1' h2' h3' h4' h5' h6' ih =>
    intro f2 h1 h2
    cases f2 with
    | zero => omega
    | succ g =>
      have hlen := lexStrChars_length _ _ _ hm
      have hrec := ih g (by simp at h1; omega) (by simp at h2; omega)
      clear ih
      simp [tokenizeF, hrec, *]
  | case11 f cs hm hws h1' h2' h3' h4' h5' h6' =>
    intro f2 h1 h2
    cases f2 with
    | zero => omega
    | succ g => simp [tokenizeF, *]
  | case12 f cs' hws h1' h2' h3' h4' h5' h6' h7' ih =>
    intro f2 h1 h2
    cases f2 with
    | zero => omega
    | succ g =>
      have hrec := ih g (by simp at h1; omega) (by simp at h2; omega)
      clear ih
      simp [tokenizeF, hrec, *]
  | case13 f cs hnt hws h1' h2' h3' h4' h5' h6' h7' =>
    intro f2 h1 h2
    cases f2 with
    | zero => omega
    | succ g => simp [tokenizeF, *]
  | case14 f cs' hws h1' h2' h3' h4' h5' h6' h7' h8' ih =>
    intro f2 h1 h2
    cases f2 with
    | zero => omega
    | succ g =>
      have hrec := ih g (by simp at h1; omega) (by simp at h2; omega)
      clear ih
      simp [tokenizeF, hrec, *]
  | case15 f cs hnt hws h1' h2' h3' h4' h5' h6' h7' h8' =>
    intro f2 h1 h2
    cases f2 with
    | zero => omega
    | succ g => simp [tokenizeF, *]
  | case16 f cs' hws h1' h2' h3' h4' h5' h6' h7' h8' h9' ih =>
    intro f2 h1 h2
    cases f2 with
    | zero => omega
    | succ g =>
      have hrec := ih g (by simp at h1; omega) (by simp at h2; omega)
      clear ih
      simp [tokenizeF, hrec, *]
  | case17 f cs hnt hws h1' h2' h3' h4' h5' h6' h7' h8' h9' =>
    intro f2 h1 h2
    cases f2 with
    | zero => omega
    | succ g => simp [tokenizeF, *]
  | case18 f d cs' hd hws h1' h2' h3' h4' h5' h6' h7' h8' h9' h10' ih =>
    intro f2 h1 h2
    cases f2 with
    | zero => omega
    | succ g =>
      have hdl := (List.dropWhile_sublist (l := cs') isDigitChar).length_le
      have hrec := ih g (by simp at h1; omega) (by simp at h2; omega)
      clear ih
      simp [tokenizeF, hrec, *]
  | case19 f d cs' hd hws h1' h2' h3' h4' h5' h6' h7' h8' h9' h10' =>
    intro f2 h1 h2
    cases f2 with
    | zero => omega
    | succ g => simp [tokenizeF, *]
  | case20 f hws h1' h2' h3' h4' h5' h6' h7' h8' h9' h10' =>
    intro f2 h1 h2
    cases f2 with
    | zero => omega
    | succ g => simp [tokenizeF, *]
  | case21 f c cs hws h1' h2' h3' h4' h5' h6' h7' h8' h9' h10' h11' hdig ih =>
    intro f2 h1 h2
    cases f2 with
    | zero => omega
    | succ g =>
      have hdl := (List.dropWhile_sublist (l := cs) isDigitChar).length_le
      have hrec := ih g (by simp at h1; omega) (by simp at h2; omega)
      clear ih
      simp [tokenizeF, hrec, *]
  | case22 f c cs hws h1' h2' h3' h4' h5' h6' h7' h8' h9' h10' h11' hdig =>
    intro f2 h1 h2
    cases f2 with
    | zero => omega
    | succ g =>
      simp [tokenizeF, *]


/-! ### Clean unfolding equations for `tokenize` -/

theorem tokenize_nil : tokenize [] = some [] := rfl

theorem tokenize_ws (c : Char) (cs : List Char) (h : isWsChar c = true) :
    tokenize (c :: cs) = tokenize cs := by
  simp [tokenize, tokenizeF, h]

theorem tokenize_lbrace (cs : List Char) :
    tokenize ('{' :: cs) = (Tok.lbrace :: ·) <$> tokenize cs := by
  simp [tokenize, tokenizeF, isWsChar]

theorem tokenize_rbrace (cs : List Char) :
    tokenize ('}' :: cs) = (Tok.rbrace :: ·) <$> tokenize cs := by
  simp [tokenize, tokenizeF, isWsChar]

theorem tokenize_lbrack (cs : List Char) :
    tokenize ('[' :: cs) = (Tok.lbrack :: ·) <$> tokenize cs := by
  simp [tokenize, tokenizeF, isWsChar]

theorem tokenize_rbrack (cs : List Char) :
    tokenize (']' :: cs) = (Tok.rbrack :: ·) <$> tokenize cs := by
  simp [tokenize, tokenizeF, isWsChar]

theorem tokenize_colon (cs : List Char) :
    tokenize (':' :: cs) = (Tok.colon :: ·) <$> tokenize cs := by
  simp [tokenize, tokenizeF, isWsChar]

theorem tokenize_comma (cs : List Char) :
    tokenize (',' :: cs) = (Tok.comma :: ·) <$> tokenize cs := by
  simp [tokenize, tokenizeF, isWsChar]

theorem tokenize_quote (cs ct rest : List Char) (h : lexStrChars cs = some (ct, rest)) :
    tokenize ('"' :: cs) = (Tok.tstr ct :: ·) <$> tokenize rest := by
  have hlen := lexStrChars_length _ _ _ h
  have hf : tokenize rest = tokenizeF (cs.length + 1) rest :=
    tokenizeF_fuel _ _ _ (by omega) (by omega)
  rw [hf]
  simp [tokenize, tokenizeF, h, isWsChar]

theorem tokenize_true (cs : List Char) :
    tokenize ('t' :: 'r' :: 'u' :: 'e' :: cs) = (Tok.tbool true :: ·) <$> tokenize cs := by
  have hf : tokenize cs = tokenizeF (cs.length + 4) cs :=
    tokenizeF_fuel _ _ _ (by omega) (by omega)
  rw [hf]
  simp [tokenize, tokenizeF, isWsChar]

theorem tokenize_false (cs : List Char) :
    tokenize ('f' :: 'a' :: 'l' :: 's' :: 'e' :: cs) = (Tok.tbool false :: ·) <$> tokenize cs := by
  have hf : tokenize cs = tokenizeF (cs.length + 5) cs :=
    tokenizeF_fuel _ _ _ (by omega) (by omega)
  rw [hf]
  simp [tokenize, tokenizeF, isWsChar]

theorem tokenize_null (cs : List Char) :
    tokenize ('n' :: 'u' :: 'l' :: 'l' :: cs) = (Tok.tnull :: ·) <$> tokenize cs := by
  have hf : tokenize cs = tokenizeF (cs.length + 4) cs :=
    tokenizeF_fuel _ _ _ (by omega) (by omega)
  rw [hf]
  simp [tokenize, tokenizeF, isWsChar]

theorem digit_ne_special (c : Char) (h : isDigitChar c = true) :
    ¬isWsChar c = true ∧ c ≠ '{' ∧ c ≠ '}' ∧ c ≠ '[' ∧ c ≠ ']' ∧ c ≠ ':' ∧ c ≠ ',' ∧
      c ≠ '"' ∧ c ≠ 't' ∧ c ≠ 'f' ∧ c ≠ 'n' ∧ c ≠ '-' := by
  refine ⟨fun hw => ?_, ?_, ?_, ?_, ?_, ?_, ?_, ?_, ?_, ?_, ?_, ?_⟩
  · simp only [isWsChar, Bool.or_eq_true, decide_eq_true_eq] at hw
    rcases hw with ((rfl | rfl) | rfl) | rfl <;> exact absurd h (by decide)
  all_goals rintro rfl <;> exact absurd h (by decide)

theorem tokenize_digit (c : Char) (cs : List Char) (h : isDigitChar c = true) :
    tokenize (c :: cs) =
      (Tok.tnum (digitsVal (digVal c) (cs.takeWhile isDigitChar) : Int) :: ·) <$>
        tokenize (cs.dropWhile isDigitChar) := by
  obtain ⟨w, n1, n2, n3, n4, n5, n6, n7, n8, n9, n10, n11⟩ := digit_ne_special c h
  have hdl := (List.dropWhile_sublist (l := cs) isDigitChar).length_le
  have hf : tokenize (cs.dropWhile isDigitChar) =
      tokenizeF (cs.length + 1) (cs.dropWhile isDigitChar) :=
    tokenizeF_fuel _ _ _ (by omega) (by omega)
  rw [hf]
  simp [tokenize, tokenizeF, h, w, n1, n2, n3, n4, n5, n6, n7, n8, n9, n10, n11]

theorem tokenize_neg (d : Char) (cs : List Char) (h : isDigitChar d = true) :
    tokenize ('-' :: d :: cs) =
      (Tok.tnum (-(digitsVal (digVal d) (cs.takeWhile isDigitChar) : Int)) :: ·) <$>
        tokenize (cs.dropWhile isDigitChar) := by
  have hdl := (List.dropWhile_sublist (l := cs) isDigitChar).length_le
  have hf : tokenize (cs.dropWhile isDigitChar) =
      tokenizeF (cs.length + 2) (cs.dropWhile isDigitChar) :=
    tokenizeF_fuel _ _ _ (by omega) (by omega)
  rw [hf]
  simp [tokenize, tokenizeF, h, isWsChar]


/-! ## Decimal numeral lemmas -/

theorem digVal_digitChar (m : Nat) (h : m < 10) : digVal (digitChar m) = m := by
  interval_cases m <;> decide

theorem isDigitChar_digitChar (m : Nat) (h : m < 10) : isDigitChar (digitChar m) = true := by
  interval_cases m <;> decide

theorem digitsVal_cons (acc : Nat) (c : Char) (ds : List Char) :
    digitsVal acc (c :: ds) = digitsVal (acc * 10 + digVal c) ds := rfl

theorem digitsVal_append (acc : Nat) (xs ys : List Char) :
    digitsVal acc (xs ++ ys) = digitsVal (digitsVal acc xs) ys :=
  List.foldl_append ..

theorem natChars_digits : ∀ f n, n < f → ∀ c ∈ natChars f n, isDigitChar c = true := by
  intro f
  induction f with
  | zero => omega
  | succ f ih =>
    intro n hn c hc
    by_cases h10 : n < 10
    · simp only [natChars, if_pos h10, List.mem_singleton] at hc
      exact hc ▸ isDigitChar_digitChar n h10
    · simp only [natChars, if_neg h10, List.mem_append, List.mem_singleton] at hc
      rcases hc with hc | rfl
      · exact ih (n / 10) (by omega) c hc
      · exact isDigitChar_digitChar _ (Nat.mod_lt _ (by omega))

theorem natChars_ne_nil : ∀ f n, n < f → natChars f n ≠ [] := by
  intro f n hn
  cases f with
  | zero => omega
  | succ f =>
    by_cases h10 : n < 10 <;> simp [natChars, h10]

theorem digitsVal_natChars : ∀ f n, n < f → digitsVal 0 (natChars f n) = n := by
  intro f
  induction f with
  | zero => omega
  | succ f ih =>
    intro n hn
    by_cases h10 : n < 10
    · simp [natChars, if_pos h10, digitsVal_cons, digitsVal, digVal_digitChar n h10]
    · rw [natChars, if_neg h10, digitsVal_append, ih (n / 10) (by omega)]
      simp [digitsVal, digitsVal_cons, digVal_digitChar (n % 10) (Nat.mod_lt _ (by omega))]
      omega

theorem takeWhile_append_all {p : Char → Bool} : ∀ {xs ys : List Char},
    (∀ c ∈ xs, p c = true) → List.takeWhile p (xs ++ ys) = xs ++ List.takeWhile p ys := by
  intro xs
  induction xs with
  | nil => simp
  | cons x xs ih =>
    intro ys h
    simp only [List.cons_append, List.takeWhile_cons, h x (by simp)]
    rw [ih (fun c hc => h c (by simp [hc]))]
    simp

theorem dropWhile_append_all {p : Char → Bool} : ∀ {xs ys : List Char},
    (∀ c ∈ xs, p c = true) → List.dropWhile p (xs ++ ys) = List.dropWhile p ys := by
  intro xs
  induction xs with
  | nil => simp
  | cons x xs ih =>
    intro ys h
    simp only [List.cons_append, List.dropWhile_cons, h x (by simp)]
    exact ih (fun c hc => h c (by simp [hc]))

theorem dropWhile_of_takeWhile_nil {p : Char → Bool} {l : List Char}
    (h : List.takeWhile p l = []) : List.dropWhile p l = l := by
  have := List.takeWhile_append_dropWhile p l
  rw [h] at this
  simpa using this

/-- Tokenizing a serialized integer numeral, provided the following text does
not begin with a digit (true everywhere `JSON.stringify` places numerals). -/
theorem tokenize_int (n : Int) (rest : List Char) (hnd : rest.takeWhile isDigitChar = []) :
    tokenize (intChars n ++ rest) = (Tok.tnum n :: ·) <$> tokenize rest := by
  have hdw := dropWhile_of_takeWhile_nil hnd
  by_cases hn : n < 0
  · rw [intChars, if_pos hn]
    rcases hne : natChars (n.natAbs + 1) n.natAbs with _ | ⟨d, ds⟩
    · exact absurd hne (natChars_ne_nil _ _ (by omega))
    · have hdig : ∀ c ∈ natChars (n.natAbs + 1) n.natAbs, isDigitChar c = true :=
        natChars_digits _ _ (by omega)
      rw [hne] at hdig
      have hd : isDigitChar d = true := hdig d (by simp)
      simp only [List.cons_append]
      rw [tokenize_neg d (ds ++ rest) hd]
      rw [takeWhile_append_all (fun c hc => hdig c (by simp [hc])), hnd,
        dropWhile_append_all (fun c hc => hdig c (by simp [hc])), hdw]
      have hval : digitsVal (digVal d) ds = n.natAbs := by
        have := digitsVal_natChars (n.natAbs + 1) n.natAbs (by omega)
        rw [hne, digitsVal_cons] at this
        simpa using this
      simp only [List.append_nil]
      rw [hval]
      have hcast : -((n.natAbs : Nat) : Int) = n := by omega
      rw [hcast]
  · rw [intChars, if_neg hn]
    rcases hne : natChars (n.natAbs + 1) n.natAbs with _ | ⟨d, ds⟩
    · exact absurd hne (natChars_ne_nil _ _ (by omega))
    · have hdig : ∀ c ∈ natChars (n.natAbs + 1) n.natAbs, isDigitChar c = true :=
        natChars_digits _ _ (by omega)
      rw [hne] at hdig
      have hd : isDigitChar d = true := hdig d (by simp)
      simp only [List.cons_append]
      rw [tokenize_digit d (ds ++ rest) hd]
      rw [takeWhile_append_all (fun c hc => hdig c (by simp [hc])), hnd,
        dropWhile_append_all (fun c hc => hdig c (by simp [hc])), hdw]
      have hval : digitsVal (digVal d) ds = n.natAbs := by
        have := digitsVal_natChars (n.natAbs + 1) n.natAbs (by omega)
        rw [hne, digitsVal_cons] at this
        simpa using this
      simp only [List.append_nil]
      rw [hval]
      have hcast : ((n.natAbs : Nat) : Int) = n := by omega
      rw [hcast]


/-! ## String escaping round-trip -/

theorem hexVal_hexDigitChar (m : Nat) (h : m < 16) : hexVal (hexDigitChar m) = some m := by
  interval_cases m <;> decide

theorem lexStrChars_esc : ∀ (cs rest : List Char),
    lexStrChars (escChars cs ++ '"' :: rest) = some (cs, rest) := by
  intro cs
  induction cs with
  | nil =>
    intro rest
    show lexStrChars ('"' :: rest) = some ([], rest)
    rw [lexStrChars.eq_def]
    simp
  | cons c cs ih =>
    intro rest
    by_cases h1 : c = '"'
    · subst h1; simp [escChars, escC, lexStrChars, unescC, ih]
    by_cases h2 : c = '\\'
    · subst h2; simp [escChars, escC, lexStrChars, unescC, ih]
    by_cases h3 : c = '\n'
    · subst h3; simp [escChars, escC, lexStrChars, unescC, ih]
    by_cases h4 : c = '\t'
    · subst h4; simp [escChars, escC, lexStrChars, unescC, ih]
    by_cases h5 : c = '\r'
    · subst h5; simp [escChars, escC, lexStrChars, unescC, ih]
    by_cases h6 : c = Char.ofNat 8
    · subst h6; simp [escChars, escC, lexStrChars, unescC, ih]
    by_cases h7 : c = Char.ofNat 12
    · subst h7; simp [escChars, escC, lexStrChars, unescC, ih]
    by_cases h8 : c.toNat < 32
    · have h16a : c.toNat / 16 < 16 := by omega
      have h16b : c.toNat % 16 < 16 := Nat.mod_lt _ (by omega)
      simp only [escChars, escC, if_neg h1, if_neg h2, if_neg h3, if_neg h4, if_neg h5,
        if_neg h6, if_neg h7, if_pos h8, List.cons_append, List.append_assoc,
        List.nil_append]
      have hv0 : hexVal '0' = some 0 := by decide
      simp only [lexStrChars, hexVal_hexDigitChar _ h16a, hexVal_hexDigitChar _ h16b, ih,
        hv0, reduceIte, Char.reduceEq]
      have harith : ((0 * 16 + 0) * 16 + c.toNat / 16) * 16 + c.toNat % 16 = c.toNat := by
        omega
      simp only [harith, Char.ofNat_toNat, Option.map_some']

    · simp only [escChars, escC, if_neg h1, if_neg h2, if_neg h3, if_neg h4, if_neg h5,
        if_neg h6, if_neg h7, if_neg h8, List.cons_append, List.singleton_append]
      rw [lexStrChars.eq_def]
      simp only [reduceIte, Char.reduceEq, if_neg h1, if_neg h2, List.nil_append]
      rw [ih]
      rfl

/-! ## Tokenizing pretty-printed values -/

theorem tokenize_sp : ∀ (n : Nat) (cs : List Char), tokenize (sp n ++ cs) = tokenize cs := by
  intro n
  induction n with
  | zero => intro cs; rfl
  | succ n ih =>
    intro cs
    show tokenize (' ' :: (sp n ++ cs)) = tokenize cs
    rw [tokenize_ws _ _ (by decide), ih]

theorem takeWhile_digit_nil (c : Char) (cs : List Char) (h : isDigitChar c = false) :
    (c :: cs).takeWhile isDigitChar = [] := by
  simp [List.takeWhile_cons, h]

mutual

theorem tokJ : ∀ (v : Json) (ind : Nat) (rest : List Char),
    rest.takeWhile isDigitChar = [] →
    tokenize (jChars ind v ++ rest) = (jToks v ++ ·) <$> tokenize rest
  | .null, ind, rest, hnd => by
    rw [jChars, jToks, nullChars]
    simp only [List.cons_append, List.nil_append]
    rw [tokenize_null]
  | .bool true, ind, rest, hnd => by
    rw [jChars, jToks, trueChars]
    simp only [List.cons_append, List.nil_append]
    rw [tokenize_true]
  | .bool false, ind, rest, hnd => by
    rw [jChars, jToks, falseChars]
    simp only [List.cons_append, List.nil_append]
    rw [tokenize_false]
  | .num n, ind, rest, hnd => by
    rw [jChars, jToks]
    rw [tokenize_int n rest hnd]
    rfl
  | .str s, ind, rest, hnd => by
    rw [jChars, jToks]
    simp only [List.cons_append, List.append_assoc, List.singleton_append, List.nil_append]
    rw [tokenize_quote _ _ _ (lexStrChars_esc s.data rest)]
  | .arr [], ind, rest, hnd => by
    rw [jChars, jToks]
    simp only [List.cons_append, List.nil_append]
    rw [tokenize_lbrack, tokenize_rbrack]
    cases tokenize rest <;> rfl
  | .arr (x :: xs), ind, rest, hnd => by
    rw [jChars, jToks]
    simp only [List.cons_append, List.append_assoc, List.singleton_append, List.nil_append]
    rw [tokenize_lbrack, tokenize_ws _ _ (by decide), tokenize_sp]
    have hndA : (arrTail (ind + 2) xs ++ '\n' :: (sp ind ++ ']' :: rest)).takeWhile
        isDigitChar = [] := by
      cases xs with
      | nil => rw [arrTail]; exact takeWhile_digit_nil _ _ (by decide)
      | cons y ys => rw [arrTail]; exact takeWhile_digit_nil _ _ (by decide)
    rw [tokJ x (ind + 2) _ hndA]
    have hndB : ('\n' :: (sp ind ++ ']' :: rest)).takeWhile isDigitChar = [] :=
      takeWhile_digit_nil _ _ (by decide)
    rw [tokArrTail xs (ind + 2) _ hndB]
    rw [tokenize_ws _ _ (by decide), tokenize_sp, tokenize_rbrack]
    cases tokenize rest <;> simp
  | .obj [], ind, rest, hnd => by
    rw [jChars, jToks]
    simp only [List.cons_append, List.nil_append]
    rw [tokenize_lbrace, tokenize_rbrace]
    cases tokenize rest <;> rfl
  | .obj ((k, v) :: xs), ind, rest, hnd => by
    rw [jChars, jToks]
    simp only [List.cons_append, List.append_assoc, List.singleton_append, List.nil_append]
    rw [tokenize_lbrace, tokenize_ws _ _ (by decide), tokenize_sp]
    have hndA : (objTail (ind + 2) xs ++ '\n' :: (sp ind ++ '}' :: rest)).takeWhile
        isDigitChar = [] := by
      cases xs with
      | nil => rw [objTail]; exact takeWhile_digit_nil _ _ (by decide)
      | cons y ys =>
        rcases y with ⟨k', v'⟩
        rw [objTail]
        exact takeWhile_digit_nil _ _ (by decide)
    rw [tokField k v (ind + 2) _ hndA]
    have hndB : ('\n' :: (sp ind ++ '}' :: rest)).takeWhile isDigitChar = [] :=
      takeWhile_digit_nil _ _ (by decide)
    rw [tokObjTail xs (ind + 2) _ hndB]
    rw [tokenize_ws _ _ (by decide), tokenize_sp, tokenize_rbrace]
    cases tokenize rest <;> simp
termination_by v ind rest hnd => (sizeOf v, 0)
decreasing_by all_goals simp_wf <;> first | omega | (constructor <;> omega) | (apply Prod.Lex.left; omega) | (apply Prod.Lex.right; omega)

theorem tokField : ∀ (k : String) (v : Json) (ind : Nat) (rest : List Char),
    rest.takeWhile isDigitChar = [] →
    tokenize (fieldChars ind k v ++ rest) =
      ((Tok.tstr k.data :: Tok.colon :: jToks v) ++ ·) <$> tokenize rest
  | k, v, ind, rest, hnd => by
    rw [fieldChars]
    simp only [List.cons_append, List.append_assoc, List.nil_append]
    rw [tokenize_quote _ _ _ (lexStrChars_esc k.data _), tokenize_colon,
      tokenize_ws _ _ (by decide), tokJ v ind rest hnd]
    cases tokenize rest <;> rfl
termination_by k v ind rest hnd => (sizeOf v, 1)
decreasing_by all_goals simp_wf <;> first | omega | (constructor <;> omega) | (apply Prod.Lex.left; omega) | (apply Prod.Lex.right; omega)

theorem tokArrTail : ∀ (xs : List Json) (ind : Nat) (rest : List Char),
    rest.takeWhile isDigitChar = [] →
    tokenize (arrTail ind xs ++ rest) = (arrToksTail xs ++ ·) <$> tokenize rest
  | [], ind, rest, hnd => by
    rw [arrTail, arrToksTail]
    simp
  | x :: xs, ind, rest, hnd => by
    rw [arrTail, arrToksTail]
    simp only [List.cons_append, List.append_assoc, List.nil_append]
    rw [tokenize_comma, tokenize_ws _ _ (by decide), tokenize_sp]
    have hndA : (arrTail ind xs ++ rest).takeWhile isDigitChar = [] := by
      cases xs with
      | nil => rw [arrTail]; simpa using hnd
      | cons y ys => rw [arrTail]; exact takeWhile_digit_nil _ _ (by decide)
    rw [tokJ x ind _ hndA, tokArrTail xs ind rest hnd]
    cases tokenize rest <;> simp
termination_by xs ind rest hnd => (sizeOf xs, 0)
decreasing_by all_goals simp_wf <;> first | omega | (constructor <;> omega) | (apply Prod.Lex.left; omega) | (apply Prod.Lex.right; omega)

theorem tokObjTail : ∀ (xs : List (String × Json)) (ind : Nat) (rest : List Char),
    rest.takeWhile isDigitChar = [] →
    tokenize (objTail ind xs ++ rest) = (objToksTail xs ++ ·) <$> tokenize rest
  | [], ind, rest, hnd => by
    rw [objTail, objToksTail]
    simp
  | (k, v) :: xs, ind, rest, hnd => by
    rw [objTail, objToksTail]
    simp only [List.cons_append, List.append_assoc, List.nil_append]
    rw [tokenize_comma, tokenize_ws _ _ (by decide), tokenize_sp]
    have hndA : (objTail ind xs ++ rest).takeWhile isDigitChar = [] := by
      cases xs with
      | nil => rw [objTail]; simpa using hnd
      | cons y ys =>
        rcases y with ⟨k', v'⟩
        rw [objTail]
        exact takeWhile_digit_nil _ _ (by decide)
    rw [tokField k v ind _ hndA, tokObjTail xs ind rest hnd]
    cases tokenize rest <;> simp
termination_by xs ind rest hnd => (sizeOf xs, 0)
decreasing_by all_goals simp_wf <;> first | omega | (constructor <;> omega) | (apply Prod.Lex.left; omega) | (apply Prod.Lex.right; omega)

end


/-! ## Parsing the token image -/

theorem jToks_cons_form (x : Json) : ∃ t ts, jToks x = t :: ts ∧ t ≠ Tok.rbrack ∧
    t ≠ Tok.rbrace ∧ t ≠ Tok.comma ∧ t ≠ Tok.colon := by
  rcases x with _ | b | n | s | (_ | ⟨y, ys⟩) | (_ | ⟨⟨k, v⟩, ys⟩) <;>
    simp [jToks]

theorem objAssign_not_mem : ∀ (acc : List (String × Json)) (k : String) (v : Json),
    k ∉ acc.map Prod.fst → objAssign acc k v = acc ++ [(k, v)] := by
  intro acc
  induction acc with
  | nil => intros; rfl
  | cons p acc ih =>
    intro k v hk
    rcases p with ⟨k', v'⟩
    simp only [List.map_cons, List.mem_cons] at hk
    push_neg at hk
    rw [objAssign, if_neg (by simpa using (Ne.symm hk.1)), ih k v hk.2]
    simp

theorem distinctKeys_cons (k : String) (ks : List String) :
    distinctKeys (k :: ks) = (!(ks.contains k) && distinctKeys ks) := rfl

theorem distinctKeys_not_mem_append : ∀ (xs ys : List String) (k : String),
    distinctKeys (xs ++ k :: ys) = true → k ∉ xs := by
  intro xs
  induction xs with
  | nil => intro ys k _ h; cases h
  | cons x xs ih =>
    intro ys k hd hk
    simp only [List.cons_append, distinctKeys_cons, Bool.and_eq_true, Bool.not_eq_true'] at hd
    rcases List.mem_cons.mp hk with rfl | hk2
    · have hc : (xs ++ k :: ys).contains k = true := by simp
      rw [hc] at hd
      cases hd.1
    · exact ih ys k hd.2 hk2

theorem objFromEntries_go : ∀ (l acc : List (String × Json)),
    distinctKeys ((acc ++ l).map Prod.fst) = true →
    List.foldl (fun acc p => objAssign acc p.1 p.2) acc l = acc ++ l := by
  intro l
  induction l with
  | nil => intro acc _; simp
  | cons p l ih =>
    intro acc hd
    rcases p with ⟨k, v⟩
    have hkeys : (acc ++ (k, v) :: l).map Prod.fst =
        acc.map Prod.fst ++ k :: (l.map Prod.fst) := by simp
    have hnotin : k ∉ acc.map Prod.fst :=
      distinctKeys_not_mem_append _ _ _ (by rw [← hkeys]; exact hd)
    rw [List.foldl_cons]
    show List.foldl (fun acc p => objAssign acc p.1 p.2) (objAssign acc k v) l = _
    rw [objAssign_not_mem acc k v hnotin]
    have hd2 : distinctKeys (((acc ++ [(k, v)]) ++ l).map Prod.fst) = true := by
      simpa using hd
    have := ih (acc ++ [(k, v)]) hd2
    simpa using this

theorem objFromEntries_self (l : List (String × Json))
    (h : distinctKeys (l.map Prod.fst) = true) : objFromEntries l = l := by
  simpa using objFromEntries_go l [] (by simpa using h)

mutual

theorem pV : ∀ (v : Json) (rest : List Tok) (f : Nat),
    (jToks v).length < f → wfJ v = true →
    pValF f (jToks v ++ rest) = some (v, rest)
  | .null, rest, f, hf, hw => by
    cases f with
    | zero => simp at hf
    | succ f => simp [jToks, pValF]
  | .bool b, rest, f, hf, hw => by
    cases f with
    | zero => simp at hf
    | succ f => simp [jToks, pValF]
  | .num n, rest, f, hf, hw => by
    cases f with
    | zero => simp at hf
    | succ f => simp [jToks, pValF]
  | .str s, rest, f, hf, hw => by
    cases f with
    | zero => simp at hf
    | succ f => simp [jToks, pValF]
  | .arr [], rest, f, hf, hw => by
    cases f with
    | zero => simp at hf
    | succ f => simp [jToks, pValF]
  | .arr (x :: xs), rest, f, hf, hw => by
    cases f with
    | zero => simp at hf
    | succ f =>
      obtain ⟨t, ts, hx, hnb, hnB, hnc, hncol⟩ := jToks_cons_form x
      simp only [wfJ, wfArr, Bool.and_eq_true] at hw
      rw [jToks] at hf ⊢
      simp only [List.cons_append, List.append_assoc, List.singleton_append,
        List.nil_append, List.length_cons, List.length_append] at hf ⊢
      have hne : ∀ ts', jToks x ++ (arrToksTail xs ++ Tok.rbrack :: rest) =
          Tok.rbrack :: ts' → False := by
        rw [hx]
        intro ts' h
        exact hnb (List.cons.inj h).1
      simp only [pValF, hne]
      rw [pI x xs rest f (by omega) hw.1 hw.2]
      rfl
  | .obj [], rest, f, hf, hw => by
    cases f with
    | zero => simp at hf
    | succ f => simp [jToks, pValF]
  | .obj ((k, v) :: xs), rest, f, hf, hw => by
    cases f with
    | zero => simp at hf
    | succ f =>
      simp only [wfJ, wfObj, Bool.and_eq_true, List.map_cons] at hw
      rw [jToks] at hf ⊢
      simp only [List.cons_append, List.append_assoc, List.singleton_append,
        List.nil_append, List.length_cons, List.length_append] at hf ⊢
      simp only [pValF]
      rw [pF k v xs rest f (by omega) hw.2.1 hw.2.2]
      simp only [Option.map_some']
      rw [objFromEntries_self _ (by simp only [List.map_cons]; exact hw.1)]
  termination_by v rest f hf hw => sizeOf v
  decreasing_by
    all_goals try simp_wf
    all_goals omega

theorem pI : ∀ (x : Json) (xs : List Json) (rest : List Tok) (f : Nat),
    (jToks x).length + (arrToksTail xs).length + 1 < f →
    wfJ x = true → wfArr xs = true →
    pItemsF f (jToks x ++ (arrToksTail xs ++ (Tok.rbrack :: rest))) = some (x :: xs, rest)
  | x, [], rest, f, hf, hwx, hwxs => by
    cases f with
    | zero => simp at hf
    | succ f =>
      simp only [pItemsF]
      rw [pV x _ f (by omega) hwx]
      simp [arrToksTail]
  | x, y :: ys, rest, f, hf, hwx, hwxs => by
    cases f with
    | zero => simp at hf
    | succ f =>
      simp only [pItemsF]
      rw [pV x _ f (by omega) hwx]
      have hlen : (arrToksTail (y :: ys)).length =
          1 + (jToks y).length + (arrToksTail ys).length := by
        rw [arrToksTail]; simp [List.length_append]; omega
      simp only [wfArr, Bool.and_eq_true] at hwxs
      rw [arrToksTail]
      simp only [List.cons_append, List.append_assoc]
      rw [pI y ys rest f (by omega) hwxs.1 hwxs.2]
      rfl
  termination_by x xs rest f hf hwx hwxs => sizeOf x + sizeOf xs + 1
  decreasing_by
    all_goals try simp_wf
    all_goals omega

theorem pF : ∀ (k : String) (v : Json) (xs : List (String × Json)) (rest : List Tok) (f : Nat),
    (jToks v).length + (objToksTail xs).length + 3 < f →
    wfJ v = true → wfObj xs = true →
    pFieldsF f (Tok.tstr k.data :: Tok.colon ::
      (jToks v ++ (objToksTail xs ++ (Tok.rbrace :: rest)))) = some ((k, v) :: xs, rest)
  | k, v, [], rest, f, hf, hwv, hwxs => by
    cases f with
    | zero => simp at hf
    | succ f =>
      simp only [pFieldsF]
      rw [pV v _ f (by omega) hwv]
      simp [objToksTail]
  | k, v, (k2, v2) :: ys, rest, f, hf, hwv, hwxs => by
    cases f with
    | zero => simp at hf
    | succ f =>
      simp only [pFieldsF]
      rw [pV v _ f (by omega) hwv]
      have hlen : (objToksTail ((k2, v2) :: ys)).length =
          3 + (jToks v2).length + (objToksTail ys).length := by
        rw [objToksTail]; simp [List.length_append]; omega
      simp only [wfObj, Bool.and_eq_true] at hwxs
      rw [objToksTail]
      simp only [List.cons_append, List.append_assoc]
      rw [pF k2 v2 ys rest f (by omega) hwxs.1 hwxs.2]
      rfl
  termination_by k v xs rest f hf hwv hwxs => sizeOf v + sizeOf xs + 1
  decreasing_by
    all_goals try simp_wf
    all_goals omega

end

/-- Round trip: parsing a pretty-printed well-formed value returns the value.
This is `JSON.parse(JSON.stringify(v, null, 2)) = v`. -/
theorem parse_stringify (v : Json) (h : wfJ v = true) :
    parseJson (stringifyJson v) = some v := by
  have htok : tokenize (jChars 0 v) = some (jToks v) := by
    have h2 := tokJ v 0 [] rfl
    rw [List.append_nil] at h2
    rw [h2, tokenize_nil]
    simp
  have hp : parseToks (jToks v) = some (v, []) := by
    have h3 := pV v [] (2 * (jToks v).length + 2) (by omega) h
    rw [List.append_nil] at h3
    exact h3
  have hdata : (stringifyJson v).data = jChars 0 v := rfl
  simp only [parseJson, hdata, htok, hp]



/-! ## The store model

The embedding of `src/JsonStore.ts`.  The filesystem is modelled by the two
paths the store ever touches — the main file `cfg.path` and the backup
`cfg.path ++ ".bak"` — plus a list of `console.error` messages (most recent
first).  Each operation is split into a *core* (a pure function of the
configuration and the main file's contents, returning the new file contents,
the backup write, the log message and the result — file writes that have
already happened are reported even when an exception follows, exactly as in
JavaScript) and a wrapper `applyCore` that applies the core's effects to a
filesystem state. -/

/-- A runtime JavaScript value as passable to `set`: JSON-representable
values (`json`, with `json .null` being `null`) and the non-serializable
kinds `undefined`, functions, symbols and bigints. -/
inductive JsVal where
  | undef : JsVal
  | fn : JsVal
  | sym : JsVal
  | bigintV (n : Int) : JsVal
  | json (j : Json) : JsVal
deriving Repr

/-- JavaScript `typeof`. -/
def typeofJs : JsVal → String
  | .undef => "undefined"
  | .fn => "function"
  | .sym => "symbol"
  | .bigintV _ => "bigint"
  | .json .null => "object"
  | .json (.bool _) => "boolean"
  | .json (.num _) => "number"
  | .json (.str _) => "string"
  | .json (.arr _) => "object"
  | .json (.obj _) => "object"

/-- JavaScript truthiness, as tested by `keyOrValues !== "object" && value`
in `JsonStore.set`. -/
def truthy : JsVal → Bool
  | .undef => false
  | .fn => true
  | .sym => true
  | .bigintV n => decide (n ≠ 0)
  | .json .null => false
  | .json (.bool b) => b
  | .json (.num n) => decide (n ≠ 0)
  | .json (.str s) => decide (s ≠ "")
  | .json (.arr _) => true
  | .json (.obj _) => true

/-- The test of `validateSerializable` (src/JsonStore.ts lines 237-243):
`value === null || invalidTypes.includes(typeof value)` — true means the
value is rejected.  `serOk v` is the complement: the value passes. -/
def serOk : JsVal → Bool
  | .json .null => false
  | .json _ => true
  | _ => false

/-- The `TypeError` message thrown by `validateSerializable`. -/
def serErrMsg (k : String) (v : JsVal) : String :=
  "Failed to set value of type `" ++ typeofJs v ++ "` for key `" ++ k ++
    "`. Values must be JSON serializable."

/-- The error message of `JsonStore.#parse` (the zod issue detail that the
code appends from `parsed.error.message` is abstracted away). -/
def schemaErrMsg : String := "Failed to save json. Data does not match schema"

/-- A zod object schema, reduced to the one interface the store consumes:
`safeParse`, here `check`, which either returns the (possibly coerced)
parsed data or fails. -/
structure Schema where
  check : Json → Option Json

/-- The immutable configuration of a `JsonStore` instance: its three
`readonly` fields. -/
structure StoreCfg where
  path : String
  schema : Schema
  defaults : Json

/-- Does the first character list lead the second (i.e. is it a prefix of
it)?  Used to model `String.prototype.endsWith` on reversed contents. -/
def leadsWith : List Char → List Char → Bool
  | [], _ => true
  | _ :: _, [] => false
  | a :: as, b :: bs => a == b && leadsWith as bs

/-- `name.endsWith(suffix)` on the character contents. -/
def strEndsWith (s t : String) : Bool := leadsWith t.data.reverse s.data.reverse

/-- The constructor of `JsonStore` (src/JsonStore.ts lines 55-65): append
`.json` to the name if missing and resolve the file path.  Path resolution
`resolve(process.cwd(), path, name)` is modelled as `path ++ "/" ++ name`
(the cwd is irrelevant to every claim).  Note the constructor stores
`defaults` and `schema` as given: it performs no validation. -/
def mkStore (name path : String) (defaults : Json) (schema : Schema) : StoreCfg :=
  let name := if strEndsWith name ".json" then name else name ++ ".json"
  ⟨path ++ "/" ++ name, schema, defaults⟩

/-- The filesystem as seen by one store: contents of the main file, of the
backup file, and the `console.error` log (most recent first). -/
structure FS where
  file : Option String
  bak : Option String
  log : List String

/-- A thrown JavaScript error: `TypeError` (from `validateSerializable`) or
plain `Error` (from `#parse`). -/
inductive JsErr where
  | typeError (msg : String) : JsErr
  | error (msg : String) : JsErr
deriving Repr, DecidableEq

/-- The effects and result of one operation, as a function of the initial
main-file contents: final main-file contents, backup written (if any), log
message emitted (if any), and the returned value or thrown error. -/
structure CoreOut (α : Type) where
  file : Option String
  bakW : Option String
  logM : Option String
  res : Except JsErr α

/-- The diagnostic printed by `JsonStore.read` on corruption recovery
(src/JsonStore.ts lines 87-89). -/
def recoveryMsg (cfg : StoreCfg) : String :=
  "Failed to parse json from " ++ cfg.path ++ ". The file has been backed up at " ++
    (cfg.path ++ ".bak") ++ " and a new json file has been created with the default values."

/-! ### Object operations (JavaScript object semantics) -/

/-- First value bound to a key in an insertion-ordered object. -/
def lookupKey : List (String × Json) → String → Option Json
  | [], _ => none
  | (k', v) :: rest, k => if k' = k then some v else lookupKey rest k

/-- The entries of a value (`Object.entries`); non-objects have none that
the store ever observes. -/
def jEntries : Json → List (String × Json)
  | .obj l => l
  | _ => []

/-- `data[k]` as a runtime value: `undefined` when absent. -/
def jGet (data : Json) (k : String) : JsVal :=
  match data with
  | .obj l =>
    match lookupKey l k with
    | some v => .json v
    | none => .undef
  | _ => (.undef)

/-- `k in data` (own properties; the prototype chain is out of scope). -/
def jHas (data : Json) (k : String) : Bool :=
  match data with
  | .obj l => (lookupKey l k).isSome
  | _ => false

/-- `data[k] = v` (schema-validated data is always an object; on a
non-object the assignment is a no-op, an unreachable case under a
`z.ZodObject` schema). -/
def jAssign (data : Json) (k : String) (v : Json) : Json :=
  match data with
  | .obj l => .obj (objAssign l k v)
  | x => x

/-- `delete data[k]`. -/
def jDelete (data : Json) (k : String) : Json :=
  match data with
  | .obj l => .obj (l.filter (fun p => !(p.1 == k)))
  | x => x

/-- `Object.entries` of a *string* (one entry per character, keyed by its
decimal index), as hit by `set`'s object branch when the second argument is
falsy and `keyOrValues` is the key string. -/
def stringEntries (k : String) : List (String × JsVal) :=
  k.data.enum.map (fun p => (Nat.repr p.1, JsVal.json (.str ⟨[p.2]⟩)))

/-- `Object.assign(data, ...)` for already-validated entries (after
`validateSerializable`, every value is non-null JSON). -/
def assignEntries (data : Json) (kvs : List (String × JsVal)) : Json :=
  kvs.foldl
    (fun d p =>
      match p.2 with
      | .json j => jAssign d p.1 j
      | _ => d)
    data

/-- JS property assignment on a plain object of runtime values (used to
model `Object.fromEntries` in `get`). -/
def assignJs : List (String × JsVal) → String → JsVal → List (String × JsVal)
  | [], k, v => [(k, v)]
  | (k', v') :: rest, k, v =>
    if k' = k then (k', v) :: rest else (k', v') :: assignJs rest k v

/-- `Object.fromEntries`: later entries overwrite the value but keep the
first position. -/
def fromEntriesJs (l : List (String × JsVal)) : List (String × JsVal) :=
  l.foldl (fun acc p => assignJs acc p.1 p.2) []

/-! ### The operations of `JsonStore` -/

/-- The corruption-recovery path of `read` (src/JsonStore.ts lines 83-91):
back up the raw text, `reset()` (which re-validates the defaults and can
throw), log, and return `this.defaults`. -/
def recoverCore (cfg : StoreCfg) (s : String) : CoreOut Json :=
  match cfg.schema.check cfg.defaults with
  | none => ⟨some s, some s, none, .error (.error schemaErrMsg)⟩
  | some d => ⟨some (stringifyJson d), some s, some (recoveryMsg cfg), .ok cfg.defaults⟩

/-- `JsonStore.read` (src/JsonStore.ts lines 70-92) as a function of the
main file's contents. -/
def readCore (cfg : StoreCfg) (file : Option String) : CoreOut Json :=
  match file with
  | none =>
    match cfg.schema.check cfg.defaults with
    | none => ⟨none, none, none, .error (.error schemaErrMsg)⟩
    | some d => ⟨some (stringifyJson d), none, none, .ok cfg.defaults⟩
  | some s =>
    match parseJson s with
    | some j =>
      match cfg.schema.check j with
      | some d => ⟨some s, none, none, .ok d⟩
      | none => recoverCore cfg s
    | none => recoverCore cfg s

/-- `JsonStore.#save` (src/JsonStore.ts lines 217-227): validate, then
write `JSON.stringify(data, null, 2)`; on validation failure the file is
untouched. -/
def saveCore (cfg : StoreCfg) (file : Option String) (data : Json) : CoreOut Unit :=
  match cfg.schema.check data with
  | none => ⟨file, none, none, .error (.error schemaErrMsg)⟩
  | some d => ⟨some (stringifyJson d), none, none, .ok ()⟩

/-- `JsonStore.set(key, value)` (src/JsonStore.ts lines 110-126).  The
branch condition is `typeof keyOrValues !== "object" && value`: for a
truthy value the single-key assignment runs (after `validateSerializable`),
but for a falsy value the code falls into the object branch, which
enumerates `Object.entries` of the KEY STRING and merges its characters
(each character passes `validateSerializable`, so that loop cannot throw
there). -/
def setKCore (cfg : StoreCfg) (file : Option String) (k : String) (v : JsVal) :
    CoreOut Unit :=
  let r := readCore cfg file
  match r.res with
  | .error e => ⟨r.file, r.bakW, r.logM, .error e⟩
  | .ok data =>
    if truthy v then
      match v with
      | .json j =>
        let s := saveCore cfg r.file (jAssign data k j)
        ⟨s.file, r.bakW, r.logM, s.res⟩
      | _ => ⟨r.file, r.bakW, r.logM, .error (.typeError (serErrMsg k v))⟩
    else
      let s := saveCore cfg r.file (assignEntries data (stringEntries k))
      ⟨s.file, r.bakW, r.logM, s.res⟩

/-- `JsonStore.set(values)` with an object argument: validate every entry
first (the first offending entry throws), then `Object.assign` and save. -/
def setOCore (cfg : StoreCfg) (file : Option String) (kvs : List (String × JsVal)) :
    CoreOut Unit :=
  let r := readCore cfg file
  match r.res with
  | .error e => ⟨r.file, r.bakW, r.logM, .error e⟩
  | .ok data =>
    match kvs.find? (fun p => !serOk p.2) with
    | some p => ⟨r.file, r.bakW, r.logM, .error (.typeError (serErrMsg p.1 p.2))⟩
    | none =>
      let s := saveCore cfg r.file (assignEntries data kvs)
      ⟨s.file, r.bakW, r.logM, s.res⟩

/-- `JsonStore.get(key)` with a single key (src/JsonStore.ts lines 133-143,
`restKeys.length === 0` branch). -/
def get1Core (cfg : StoreCfg) (file : Option String) (k : String) : CoreOut JsVal :=
  let r := readCore cfg file
  match r.res with
  | .error e => ⟨r.file, r.bakW, r.logM, .error e⟩
  | .ok data => ⟨r.file, r.bakW, r.logM, .ok (jGet data k)⟩

/-- `JsonStore.get(key, ...restKeys)` with extra keys:
`Object.fromEntries([[key, data[key]], ...Object.entries(data).filter(([k]) =>
restKeys.includes(k))])`. -/
def getMCore (cfg : StoreCfg) (file : Option String) (k : String) (ks : List String) :
    CoreOut (List (String × JsVal)) :=
  let r := readCore cfg file
  match r.res with
  | .error e => ⟨r.file, r.bakW, r.logM, .error e⟩
  | .ok data =>
    ⟨r.file, r.bakW, r.logM,
      .ok (fromEntriesJs ((k, jGet data k) ::
        ((jEntries data).filter (fun p => ks.contains p.1)).map
          (fun p => (p.1, JsVal.json p.2))))⟩

/-- `JsonStore.has` (src/JsonStore.ts lines 150-162): the running flag
starts true and is cleared by any missing key. -/
def hasCore (cfg : StoreCfg) (file : Option String) (ks : List String) : CoreOut Bool :=
  let r := readCore cfg file
  match r.res with
  | .error e => ⟨r.file, r.bakW, r.logM, .error e⟩
  | .ok data =>
    ⟨r.file, r.bakW, r.logM,
      .ok (ks.foldl (fun acc kk => if jHas data kk then acc else false) true)⟩

/-- `JsonStore.delete` (src/JsonStore.ts lines 169-189): delete the listed
keys that exist, save only if some key was deleted, return whether all
listed keys existed. -/
def delCore (cfg : StoreCfg) (file : Option String) (ks : List String) : CoreOut Bool :=
  let r := readCore cfg file
  match r.res with
  | .error e => ⟨r.file, r.bakW, r.logM, .error e⟩
  | .ok data =>
    let st := ks.foldl
      (fun (st : Json × Bool × Bool) kk =>
        if jHas st.1 kk then (jDelete st.1 kk, true, st.2.2)
        else (st.1, st.2.1, false))
      (data, false, true)
    if st.2.1 then
      let s := saveCore cfg r.file st.1
      ⟨s.file, r.bakW, r.logM, s.res.map (fun _ => st.2.2)⟩
    else ⟨r.file, r.bakW, r.logM, .ok st.2.2⟩

/-- `JsonStore.reset` (src/JsonStore.ts lines 194-197). -/
def resetCore (cfg : StoreCfg) (file : Option String) : CoreOut Json :=
  let s := saveCore cfg file cfg.defaults
  ⟨s.file, none, none, s.res.map (fun _ => cfg.defaults)⟩

/-- `JsonStore.rm` (src/JsonStore.ts lines 97-101): delete the file,
swallowing any error. -/
def rmCore (_cfg : StoreCfg) (_file : Option String) : CoreOut Unit :=
  ⟨none, none, none, .ok ()⟩

/-! ### Applying an operation to the filesystem -/

/-- Apply a core's effects to a filesystem state. -/
def applyCore {α : Type} (fs : FS) (c : CoreOut α) : FS × Except JsErr α :=
  (⟨c.file, c.bakW <|> fs.bak,
    match c.logM with
    | some m => m :: fs.log
    | none => fs.log⟩, c.res)

def readStore (cfg : StoreCfg) (fs : FS) : FS × Except JsErr Json :=
  applyCore fs (readCore cfg fs.file)

def saveStore (cfg : StoreCfg) (fs : FS) (data : Json) : FS × Except JsErr Unit :=
  applyCore fs (saveCore cfg fs.file data)

def setKStore (cfg : StoreCfg) (fs : FS) (k : String) (v : JsVal) :
    FS × Except JsErr Unit :=
  applyCore fs (setKCore cfg fs.file k v)

def setOStore (cfg : StoreCfg) (fs : FS) (kvs : List (String × JsVal)) :
    FS × Except JsErr Unit :=
  applyCore fs (setOCore cfg fs.file kvs)

def get1Store (cfg : StoreCfg) (fs : FS) (k : String) : FS × Except JsErr JsVal :=
  applyCore fs (get1Core cfg fs.file k)

def getMStore (cfg : StoreCfg) (fs : FS) (k : String) (ks : List String) :
    FS × Except JsErr (List (String × JsVal)) :=
  applyCore fs (getMCore cfg fs.file k ks)

def hasStore (cfg : StoreCfg) (fs : FS) (ks : List String) : FS × Except JsErr Bool :=
  applyCore fs (hasCore cfg fs.file ks)

def delStore (cfg : StoreCfg) (fs : FS) (ks : List String) : FS × Except JsErr Bool :=
  applyCore fs (delCore cfg fs.file ks)

def resetStore (cfg : StoreCfg) (fs : FS) : FS × Except JsErr Json :=
  applyCore fs (resetCore cfg fs.file)

def rmStore (cfg : StoreCfg) (fs : FS) : FS × Except JsErr Unit :=
  applyCore fs (rmCore cfg fs.file)

/-! ### Operations as data, for statements over arbitrary call sequences -/

/-- The result of an arbitrary operation. -/
inductive Out where
  | val (j : Json) : Out
  | js (v : JsVal) : Out
  | objOut (l : List (String × JsVal)) : Out
  | b (bb : Bool) : Out
  | unit : Out
deriving Repr

/-- One public method call with its arguments. -/
inductive Op where
  | read : Op
  | rm : Op
  | reset : Op
  | setK (k : String) (v : JsVal) : Op
  | setO (kvs : List (String × JsVal)) : Op
  | get1 (k : String) : Op
  | getM (k : String) (ks : List String) : Op
  | has (ks : List String) : Op
  | del (ks : List String) : Op

/-- The core of an arbitrary operation. -/
def opCore (cfg : StoreCfg) (op : Op) (file : Option String) : CoreOut Out :=
  match op with
  | .read => let c := readCore cfg file; ⟨c.file, c.bakW, c.logM, c.res.map .val⟩
  | .rm => let c := rmCore cfg file; ⟨c.file, c.bakW, c.logM, c.res.map (fun _ => .unit)⟩
  | .reset => let c := resetCore cfg file; ⟨c.file, c.bakW, c.logM, c.res.map .val⟩
  | .setK k v => let c := setKCore cfg file k v; ⟨c.file, c.bakW, c.logM, c.res.map (fun _ => .unit)⟩
  | .setO kvs => let c := setOCore cfg file kvs; ⟨c.file, c.bakW, c.logM, c.res.map (fun _ => .unit)⟩
  | .get1 k => let c := get1Core cfg file k; ⟨c.file, c.bakW, c.logM, c.res.map .js⟩
  | .getM k ks => let c := getMCore cfg file k ks; ⟨c.file, c.bakW, c.logM, c.res.map .objOut⟩
  | .has ks => let c := hasCore cfg file ks; ⟨c.file, c.bakW, c.logM, c.res.map .b⟩
  | .del ks => let c := delCore cfg file ks; ⟨c.file, c.bakW, c.logM, c.res.map .b⟩

/-- Run one operation on the filesystem. -/
def applyOp (cfg : StoreCfg) (op : Op) (fs : FS) : FS × Except JsErr Out :=
  applyCore fs (opCore cfg op fs.file)

/-- Run a sequence of operations (each call's error, if any, is surfaced to
the client, who carries on — the filesystem keeps every effect). -/
def applyOps (cfg : StoreCfg) (ops : List Op) (fs : FS) : FS :=
  ops.foldl (fun fs op => (applyOp cfg op fs).1) fs

/-! ## Concrete fixtures used by the witnesses -/

/-- The schema `z.object({}).loose()` — accepts any object and returns it unchanged,
rejects non-objects (the store's default schema). -/
def looseSchema : Schema := ⟨fun j => match j with | .obj l => some (.obj l) | _ => none⟩

/-- A strict schema accepting exactly objects of the shape `{a: number}`. -/
def abSchema : Schema :=
  ⟨fun j =>
    match j with
    | .obj [("a", .num n)] => some (.obj [("a", .num n)])
    | _ => none⟩

/-- A schema accepting well-formed objects unchanged. -/
def wfObjSchema : Schema :=
  ⟨fun j =>
    match j with
    | .obj l => if wfJ (.obj l) then some (.obj l) else none
    | _ => none⟩

def demoDefaults : Json := Json.obj [("name", Json.str "John"), ("age", Json.num 30)]

def demoCfg : StoreCfg := mkStore "store" "/tmp" demoDefaults looseSchema

/-! ## The claims -/

/-- C1: When `read()` is called and the backing file exists but its
contents fail to parse as JSON, or parse but fail schema validation,
`read()` copies the original raw text verbatim to `<path>.bak` (overwriting
any prior backup), overwrites the main file with the serialized defaults,
emits a diagnostic naming the original path and the backup path, and
returns the defaults; no error propagates to the caller.  (The defaults are
assumed schema-valid, the spec's data-model invariant.) -/
theorem read_corrupt_recovers (cfg : StoreCfg) (fs : FS) (s : String)
    (hfile : fs.file = some s)
    (hbad : parseJson s = none ∨ ∃ j, parseJson s = some j ∧ cfg.schema.check j = none)
    (hdef : cfg.schema.check cfg.defaults = some cfg.defaults) :
    readStore cfg fs =
      (⟨some (stringifyJson cfg.defaults), some s, recoveryMsg cfg :: fs.log⟩,
        Except.ok cfg.defaults) ∧
    recoveryMsg cfg = "Failed to parse json from " ++ cfg.path ++
      ". The file has been backed up at " ++ (cfg.path ++ ".bak") ++
      " and a new json file has been created with the default values." := by
  constructor
  · rcases hbad with hb | ⟨j, hj, hc⟩
    · simp [readStore, readCore, recoverCore, applyCore, hfile, hb, hdef]
    · simp [readStore, readCore, recoverCore, applyCore, hfile, hj, hc, hdef]
  · rfl

theorem read_corrupt_recovers_witness :
    parseJson "\x7b invalid json \x7d" = none ∧
    looseSchema.check demoCfg.defaults = some demoCfg.defaults ∧
    readStore demoCfg ⟨some "\x7b invalid json \x7d", some "old backup", ["earlier"]⟩ =
      (⟨some (stringifyJson demoDefaults), some "\x7b invalid json \x7d",
        [recoveryMsg demoCfg, "earlier"]⟩, Except.ok demoDefaults) :=
  ⟨rfl, rfl,
    (read_corrupt_recovers demoCfg _ "\x7b invalid json \x7d" rfl (Or.inl rfl) rfl).1⟩

/-- C2: Every operation's result is a function of the immutable
configuration and the current main-file contents alone: two states agreeing
on the file contents give identical results and identical resulting file
contents for every operation, and a `read()` of a file holding parseable,
schema-valid text returns that text's validated value with the state
untouched — never a cached value. -/
theorem ops_stateless (cfg : StoreCfg) (op : Op) (fs1 fs2 : FS)
    (hfile : fs1.file = fs2.file) :
    ((applyOp cfg op fs1).2 = (applyOp cfg op fs2).2 ∧
      ((applyOp cfg op fs1).1).file = ((applyOp cfg op fs2).1).file) ∧
    (∀ s j d, fs1.file = some s → parseJson s = some j → cfg.schema.check j = some d →
      readStore cfg fs1 = (fs1, Except.ok d)) := by
  refine ⟨⟨?_, ?_⟩, ?_⟩
  · simp [applyOp, applyCore, hfile]
  · simp [applyOp, applyCore, hfile]
  · intro s j d hs hj hd
    rcases fs1 with ⟨f1, b1, l1⟩
    simp only at hs
    simp [readStore, readCore, applyCore, hs, hj, hd]

theorem ops_stateless_witness :
    (⟨some "\x7b\x7d", none, []⟩ : FS).file = (⟨some "\x7b\x7d", some "b", ["x"]⟩ : FS).file ∧
    (applyOp demoCfg .read ⟨some "\x7b\x7d", none, []⟩).2 =
      (applyOp demoCfg .read ⟨some "\x7b\x7d", some "b", ["x"]⟩).2 :=
  ⟨rfl, ((ops_stateless demoCfg .read ⟨some "\x7b\x7d", none, []⟩ ⟨some "\x7b\x7d", some "b", ["x"]⟩
    rfl).1).1⟩

/-- C3: For every value `v` that satisfies the schema (and is the image
of a runtime object, i.e. well-formed), persisting `v` via the internal
save and then calling `read()` yields `v` back: serialize-to-disk followed
by parse-and-validate is the identity on schema-valid values. -/
theorem persist_then_read_id (cfg : StoreCfg) (fs : FS) (v : Json)
    (hw : wfJ v = true) (hv : cfg.schema.check v = some v) :
    ∃ fs', saveStore cfg fs v = (fs', Except.ok ()) ∧
      readStore cfg fs' = (fs', Except.ok v) := by
  refine ⟨⟨some (stringifyJson v), fs.bak, fs.log⟩, ?_, ?_⟩
  · simp [saveStore, saveCore, applyCore, hv]
  · simp [readStore, readCore, applyCore, parse_stringify v hw, hv]

theorem persist_then_read_id_witness :
    wfJ (Json.obj [("a", Json.num 1)]) = true ∧
    looseSchema.check (Json.obj [("a", Json.num 1)]) = some (Json.obj [("a", Json.num 1)]) ∧
    ∃ fs', saveStore demoCfg ⟨none, none, []⟩ (Json.obj [("a", Json.num 1)]) =
        (fs', Except.ok ()) ∧
      readStore demoCfg fs' = (fs', Except.ok (Json.obj [("a", Json.num 1)])) :=
  ⟨rfl, rfl, persist_then_read_id demoCfg ⟨none, none, []⟩ _ rfl rfl⟩
def abDefaults : Json := Json.obj [("a", Json.num 1)]

def abCfg : StoreCfg := mkStore "ab" "/tmp" abDefaults abSchema

/-- C4, counterexample: the constructor performs no validation.  With a
schema that rejects the given defaults, construction succeeds anyway and
the store is fully usable (here a `read()` of a valid file succeeds) — no
validation error ever surfaced at construction time. -/
theorem ctor_skips_validation_cex :
    abSchema.check (mkStore "s" "/tmp" (Json.obj []) abSchema).defaults = none ∧
    readStore (mkStore "s" "/tmp" (Json.obj []) abSchema)
        ⟨some "\x7b\n  \"a\": 1\n\x7d", none, []⟩ =
      (⟨some "\x7b\n  \"a\": 1\n\x7d", none, []⟩, Except.ok (Json.obj [("a", Json.num 1)])) :=
  ⟨rfl, rfl⟩

/-- C4, amended: the constructor stores the defaults as given, without
validating them against the schema; non-conforming defaults are only
detected later, when an operation first needs them (here: the first
`read()` with no backing file throws the schema error instead of seeding
the file). -/
theorem ctor_defers_validation (name path : String) (defaults : Json) (schema : Schema)
    (hbad : schema.check defaults = none) :
    (mkStore name path defaults schema).defaults = defaults ∧
    (∀ bak log, readStore (mkStore name path defaults schema) ⟨none, bak, log⟩ =
      (⟨none, bak, log⟩, Except.error (JsErr.error schemaErrMsg))) := by
  constructor
  · simp [mkStore]
  · intro bak log
    simp [readStore, readCore, applyCore, mkStore, hbad]

theorem ctor_defers_validation_witness :
    abSchema.check (Json.obj []) = none ∧
    (mkStore "s" "/tmp" (Json.obj []) abSchema).defaults = Json.obj [] ∧
    readStore (mkStore "s" "/tmp" (Json.obj []) abSchema) ⟨none, none, []⟩ =
      (⟨none, none, []⟩, Except.error (JsErr.error schemaErrMsg)) :=
  ⟨rfl, (ctor_defers_validation "s" "/tmp" (Json.obj []) abSchema rfl).1,
    (ctor_defers_validation "s" "/tmp" (Json.obj []) abSchema rfl).2 none []⟩

/-- C5, code bug: `set("undef", undefined)` does not throw.  The branch
condition `typeof keyOrValues !== "object" && value` is false for the falsy
`undefined`, so the call falls into the object branch, enumerates
`Object.entries` of the key string `"undef"`, merges its characters into
the data and WRITES the file — returning normally where the spec (and the
repository's own test) demand a `TypeError` with no side effects. -/
theorem set_undefined_writes :
    setKStore demoCfg ⟨some "\x7b\"a\": 1\x7d", none, []⟩ "undef" JsVal.undef =
      (⟨some (stringifyJson (Json.obj [("a", Json.num 1), ("0", Json.str "u"),
          ("1", Json.str "n"), ("2", Json.str "d"), ("3", Json.str "e"),
          ("4", Json.str "f")])), none, []⟩, Except.ok ()) := rfl

/-- C6, code bug: `set("k", 0)` with a perfectly JSON-serializable falsy
value does not assign `0` to `"k"`.  The guard `&& value` sends every falsy
value down the object branch, so the characters of the key are merged
instead: the saved data still maps `"k"` to its old value `1` and gains a
bogus `"0": "k"` entry. -/
theorem set_falsy_value_misassigns :
    setKStore demoCfg ⟨some "\x7b\"k\": 1\x7d", none, []⟩ "k" (JsVal.json (Json.num 0)) =
      (⟨some (stringifyJson (Json.obj [("k", Json.num 1), ("0", Json.str "k")])),
        none, []⟩, Except.ok ()) ∧
    jGet (Json.obj [("k", Json.num 1), ("0", Json.str "k")]) "k" =
      JsVal.json (Json.num 1) :=
  ⟨rfl, rfl⟩

/-- C7, counterexample: when `set` is called while the backing file does
not exist, the `this.read()` at the top of `set` seeds the file with the
serialized defaults BEFORE the merge is validated; the failed validation
then surfaces, but the file has already changed (from absent to the
defaults), contradicting "on failure the file is left unmodified". -/
theorem set_error_after_write_cex :
    setKStore abCfg ⟨none, none, []⟩ "b" (JsVal.json (Json.num 2)) =
      (⟨some (stringifyJson abDefaults), none, []⟩,
        Except.error (JsErr.error schemaErrMsg)) ∧
    (none : Option String) ≠ some (stringifyJson abDefaults) :=
  ⟨rfl, by simp⟩

/-- C7, amended: when the backing file exists and holds parseable,
schema-valid text (so the read inside `set` takes its pure path), a `set`
whose merged result fails schema validation propagates the error and
leaves the file unchanged — for the single-key form (with a truthy value,
the only way the single-key branch runs) and for the object form alike. -/
theorem set_invalid_keeps_file (cfg : StoreCfg) (fs : FS) (s : String) (j d : Json)
    (hf : fs.file = some s) (hp : parseJson s = some j) (hc : cfg.schema.check j = some d)
    (k : String) (v : Json) (hv : truthy (JsVal.json v) = true)
    (hbad : cfg.schema.check (jAssign d k v) = none) :
    setKStore cfg fs k (JsVal.json v) = (fs, Except.error (JsErr.error schemaErrMsg)) ∧
    ∀ kvs, cfg.schema.check (assignEntries d kvs) = none →
      kvs.find? (fun p => !serOk p.2) = none →
      setOStore cfg fs kvs = (fs, Except.error (JsErr.error schemaErrMsg)) := by
  rcases fs with ⟨f, b, l⟩
  simp only at hf
  subst hf
  constructor
  · simp [setKStore, setKCore, readCore, saveCore, applyCore, hp, hc, hv, hbad]
  · intro kvs h1 h2
    simp [setOStore, setOCore, readCore, saveCore, applyCore, hp, hc, h1, h2]

theorem set_invalid_keeps_file_witness :
    parseJson "\x7b\n  \"a\": 1\n\x7d" = some (Json.obj [("a", Json.num 1)]) ∧
    abCfg.schema.check (Json.obj [("a", Json.num 1)]) = some (Json.obj [("a", Json.num 1)]) ∧
    truthy (JsVal.json (Json.num 2)) = true ∧
    abCfg.schema.check (jAssign (Json.obj [("a", Json.num 1)]) "b" (Json.num 2)) = none ∧
    setKStore abCfg ⟨some "\x7b\n  \"a\": 1\n\x7d", none, []⟩ "b" (JsVal.json (Json.num 2)) =
      (⟨some "\x7b\n  \"a\": 1\n\x7d", none, []⟩, Except.error (JsErr.error schemaErrMsg)) :=
  ⟨rfl, rfl, rfl, rfl,
    (set_invalid_keeps_file abCfg ⟨some "\x7b\n  \"a\": 1\n\x7d", none, []⟩ _ _ _ rfl rfl rfl
      "b" (Json.num 2) rfl rfl).1⟩

/-- C10: calling `set` with an object of key-value pairs in which some
value is `null` throws a `TypeError` from `validateSerializable` (whose
test `value === null || invalidTypes.includes(typeof value)` treats `null`
as non-serializable), and the merged result is never written: under a
clean read, the file keeps its prior contents.  The error names the first
offending entry, which need not be the `null` one. -/
theorem setO_null_rejected (cfg : StoreCfg) (fs : FS) (s : String) (j d : Json)
    (hf : fs.file = some s) (hp : parseJson s = some j) (hc : cfg.schema.check j = some d)
    (kvs : List (String × JsVal)) (k0 : String)
    (hmem : (k0, JsVal.json Json.null) ∈ kvs) :
    ∃ k1 v1, serOk v1 = false ∧
      setOStore cfg fs kvs = (fs, Except.error (JsErr.typeError (serErrMsg k1 v1))) := by
  rcases fs with ⟨f, b, l⟩
  simp only at hf
  subst hf
  have hsome : (kvs.find? (fun p => !serOk p.2)).isSome := by
    rw [List.find?_isSome]
    exact ⟨(k0, JsVal.json Json.null), hmem, by simp [serOk]⟩
  rcases Option.isSome_iff_exists.mp hsome with ⟨q, hq⟩
  have hqval : serOk q.2 = false := by
    have h2 := List.find?_some hq
    simpa using h2
  refine ⟨q.1, q.2, hqval, ?_⟩
  simp [setOStore, setOCore, readCore, applyCore, hp, hc, hq]

theorem setO_null_rejected_witness :
    parseJson "\x7b\"a\": 1\x7d" = some (Json.obj [("a", Json.num 1)]) ∧
    demoCfg.schema.check (Json.obj [("a", Json.num 1)]) = some (Json.obj [("a", Json.num 1)]) ∧
    ("n", JsVal.json Json.null) ∈ [("n", JsVal.json Json.null)] ∧
    ∃ k1 v1, serOk v1 = false ∧
      setOStore demoCfg ⟨some "\x7b\"a\": 1\x7d", none, []⟩ [("n", JsVal.json Json.null)] =
        (⟨some "\x7b\"a\": 1\x7d", none, []⟩, Except.error (JsErr.typeError (serErrMsg k1 v1))) :=
  ⟨rfl, rfl, List.mem_singleton.mpr rfl,
    setO_null_rejected demoCfg ⟨some "\x7b\"a\": 1\x7d", none, []⟩ _ _ _ rfl rfl rfl
      _ "n" (List.mem_singleton.mpr rfl)⟩
/-- A well-behaved zod schema: its output always re-validates to itself
(parse is idempotent on its own output) and is the image of a runtime
object (well-formed).  Every plain `z.object` schema has this property. -/
def SchemaGood (sch : Schema) : Prop :=
  ∀ j d, sch.check j = some d → sch.check d = some d ∧ wfJ d = true

/-- The on-disk invariant of C8: whenever the main file exists and holds
parseable JSON, the parsed value satisfies the schema. -/
def FileOk (cfg : StoreCfg) (file : Option String) : Prop :=
  ∀ s j, file = some s → parseJson s = some j → (cfg.schema.check j).isSome = true

theorem fileOk_none (cfg : StoreCfg) : FileOk cfg none :=
  fun _ _ h _ => Option.noConfusion h

theorem fileOk_stringify (cfg : StoreCfg) (d : Json) (hw : wfJ d = true)
    (hc : (cfg.schema.check d).isSome = true) :
    FileOk cfg (some (stringifyJson d)) := by
  intro s j hs hj
  injection hs with hs
  subst hs
  rw [parse_stringify d hw] at hj
  injection hj with hj
  subst hj
  exact hc

theorem readCore_fileOk (cfg : StoreCfg) (file : Option String)
    (hg : SchemaGood cfg.schema) (hf : FileOk cfg file) :
    FileOk cfg (readCore cfg file).file := by
  cases file with
  | none =>
    cases hd : cfg.schema.check cfg.defaults with
    | none => simp only [readCore, hd]; exact fileOk_none cfg
    | some d =>
      simp only [readCore, hd]
      rcases hg _ _ hd with ⟨hdd, hwd⟩
      exact fileOk_stringify cfg d hwd (by simp [hdd])
  | some s =>
    cases hp : parseJson s with
    | none =>
      cases hd : cfg.schema.check cfg.defaults with
      | none =>
        simp only [readCore, hp, recoverCore, hd]
        intro s' j hs' hj
        injection hs' with hs'
        subst hs'
        rw [hp] at hj
        cases hj
      | some d =>
        simp only [readCore, hp, recoverCore, hd]
        rcases hg _ _ hd with ⟨hdd, hwd⟩
        exact fileOk_stringify cfg d hwd (by simp [hdd])
    | some j =>
      cases hc : cfg.schema.check j with
      | none =>
        have hbad := hf s j rfl hp
        rw [hc] at hbad
        simp at hbad
      | some d => simp only [readCore, hp, hc]; exact hf

theorem saveCore_fileOk (cfg : StoreCfg) (file : Option String) (data : Json)
    (hg : SchemaGood cfg.schema) (hf : FileOk cfg file) :
    FileOk cfg (saveCore cfg file data).file := by
  cases hc : cfg.schema.check data with
  | none => simp only [saveCore, hc]; exact hf
  | some d =>
    simp only [saveCore, hc]
    rcases hg _ _ hc with ⟨hdd, hwd⟩
    exact fileOk_stringify cfg d hwd (by simp [hdd])

theorem opCore_fileOk (cfg : StoreCfg) (op : Op) (file : Option String)
    (hg : SchemaGood cfg.schema) (hf : FileOk cfg file) :
    FileOk cfg (opCore cfg op file).file := by
  have hr := readCore_fileOk cfg file hg hf
  cases op with
  | read => simpa [opCore] using hr
  | rm => simpa [opCore, rmCore] using fileOk_none cfg
  | reset =>
    simpa [opCore, resetCore] using saveCore_fileOk cfg file cfg.defaults hg hf
  | setK k v =>
    cases hres : (readCore cfg file).res with
    | error e => simpa [opCore, setKCore, hres] using hr
    | ok data =>
      by_cases htv : truthy v = true
      · cases v with
        | json j =>
          simpa [opCore, setKCore, hres, htv] using
            saveCore_fileOk cfg (readCore cfg file).file (jAssign data k j) hg hr
        | undef => simp [truthy] at htv
        | fn => simpa [opCore, setKCore, hres, htv] using hr
        | sym => simpa [opCore, setKCore, hres, htv] using hr
        | bigintV n => simpa [opCore, setKCore, hres, htv] using hr
      · simp only [Bool.not_eq_true] at htv
        simpa [opCore, setKCore, hres, htv] using
          saveCore_fileOk cfg (readCore cfg file).file
            (assignEntries data (stringEntries k)) hg hr
  | setO kvs =>
    cases hres : (readCore cfg file).res with
    | error e => simpa [opCore, setOCore, hres] using hr
    | ok data =>
      cases hfind : kvs.find? (fun p => !serOk p.2) with
      | some q => simpa [opCore, setOCore, hres, hfind] using hr
      | none =>
        simpa [opCore, setOCore, hres, hfind] using
          saveCore_fileOk cfg (readCore cfg file).file (assignEntries data kvs) hg hr
  | get1 k =>
    cases hres : (readCore cfg file).res with
    | error e => simpa [opCore, get1Core, hres] using hr
    | ok data => simpa [opCore, get1Core, hres] using hr
  | getM k ks =>
    cases hres : (readCore cfg file).res with
    | error e => simpa [opCore, getMCore, hres] using hr
    | ok data => simpa [opCore, getMCore, hres] using hr
  | has ks =>
    cases hres : (readCore cfg file).res with
    | error e => simpa [opCore, hasCore, hres] using hr
    | ok data => simpa [opCore, hasCore, hres] using hr
  | del ks =>
    cases hres : (readCore cfg file).res with
    | error e => simpa [opCore, delCore, hres] using hr
    | ok data =>
      by_cases hflag : (ks.foldl
          (fun (st : Json × Bool × Bool) kk =>
            if jHas st.1 kk then (jDelete st.1 kk, true, st.2.2)
            else (st.1, st.2.1, false))
          (data, false, true)).2.1 = true
      · simpa [opCore, delCore, hres, hflag] using
          saveCore_fileOk cfg (readCore cfg file).file _ hg hr
      · simp only [Bool.not_eq_true] at hflag
        simpa [opCore, delCore, hres, hflag] using hr

/-- C8: after any sequence of store operations, whenever the backing file
exists and holds parseable JSON, its contents satisfy the schema
(`FileOk`): every write of the main file is either the serialization of a
schema-validated value or leaves an unparseable original in place, so the
invariant is preserved by `read`, `set`, `get`, `has`, `delete`, `reset`
and `rm` alike.  The schema is assumed well-behaved (`SchemaGood`:
validation is idempotent and produces well-formed values), which every
plain zod object schema satisfies. -/
theorem store_file_schema_invariant (cfg : StoreCfg) (ops : List Op) (fs : FS)
    (hg : SchemaGood cfg.schema) (hf : FileOk cfg fs.file) :
    FileOk cfg (applyOps cfg ops fs).file := by
  induction ops generalizing fs with
  | nil => exact hf
  | cons op ops ih =>
    simp only [applyOps, List.foldl_cons] at *
    exact ih _ (by simpa [applyOp, applyCore] using opCore_fileOk cfg op fs.file hg hf)

theorem wfObjSchema_good : SchemaGood wfObjSchema := by
  intro j d h
  cases j <;> simp only [wfObjSchema] at h <;> try cases h
  rename_i l
  split at h
  · rename_i hw
    injection h with h
    subst h
    exact ⟨by simp [wfObjSchema, hw], hw⟩
  · cases h

def wfCfg : StoreCfg := mkStore "w" "/tmp" (Json.obj [("a", Json.num 1)]) wfObjSchema

theorem store_file_schema_invariant_witness :
    SchemaGood wfCfg.schema ∧ FileOk wfCfg (⟨none, none, []⟩ : FS).file ∧
    FileOk wfCfg (applyOps wfCfg
      [Op.setK "b" (JsVal.json (Json.num 2)), Op.read, Op.del ["a"]]
      ⟨none, none, []⟩).file :=
  ⟨wfObjSchema_good, fileOk_none wfCfg,
    store_file_schema_invariant wfCfg
      [Op.setK "b" (JsVal.json (Json.num 2)), Op.read, Op.del ["a"]]
      ⟨none, none, []⟩ wfObjSchema_good (fileOk_none wfCfg)⟩
theorem assignJs_not_mem : ∀ (acc : List (String × JsVal)) (k : String) (v : JsVal),
    (∀ q ∈ acc, q.1 ≠ k) → assignJs acc k v = acc ++ [(k, v)] := by
  intro acc
  induction acc with
  | nil => intros; rfl
  | cons p acc ih =>
    intro k v h
    rcases p with ⟨k', v'⟩
    have hk : k' ≠ k := h (k', v') (List.mem_cons_self _ _)
    rw [assignJs, if_neg hk, ih k v (fun q hq => h q (List.mem_cons_of_mem _ hq))]
    simp

theorem distinctKeys_filter (φ : String × Json → Bool) : ∀ (l : List (String × Json)),
    distinctKeys (l.map Prod.fst) = true →
    distinctKeys (((l.filter φ).map Prod.fst)) = true := by
  intro l
  induction l with
  | nil => intro _; rfl
  | cons p l ih =>
    intro hd
    rcases p with ⟨k, v⟩
    simp only [List.map_cons, distinctKeys_cons, Bool.and_eq_true,
      Bool.not_eq_true'] at hd
    by_cases hφ : φ (k, v) = true
    · simp only [List.filter_cons, hφ, if_pos, List.map_cons, distinctKeys_cons,
        Bool.and_eq_true, Bool.not_eq_true']
      refine ⟨?_, ih hd.2⟩
      by_contra hc
      simp only [Bool.not_eq_false, List.contains_iff_exists_mem_beq] at hc
      rcases hc with ⟨a, ha, hbeq⟩
      rcases List.mem_map.mp ha with ⟨q, hq, rfl⟩
      have hmem : q.1 ∈ l.map Prod.fst :=
        List.mem_map.mpr ⟨q, List.mem_of_mem_filter hq, rfl⟩
      have : (l.map Prod.fst).contains k = true :=
        List.contains_iff_exists_mem_beq.mpr ⟨q.1, hmem, by simpa using hbeq⟩
      rw [this] at hd
      cases hd.1
    · simp only [List.filter_cons, hφ]
      exact ih hd.2

theorem lookupKey_of_mem : ∀ (l : List (String × Json)) (k : String) (v : Json),
    distinctKeys (l.map Prod.fst) = true → (k, v) ∈ l → lookupKey l k = some v := by
  intro l
  induction l with
  | nil => intro k v _ h; cases h
  | cons p l ih =>
    intro k v hd hm
    rcases p with ⟨k', v'⟩
    simp only [List.map_cons, distinctKeys_cons, Bool.and_eq_true,
      Bool.not_eq_true'] at hd
    rcases List.mem_cons.mp hm with heq | hrest
    · injection heq with h1 h2
      subst h1
      subst h2
      rw [lookupKey, if_pos rfl]
    · by_cases hk : k' = k
      · subst hk
        have : (l.map Prod.fst).contains k' = true :=
          List.contains_iff_exists_mem_beq.mpr
            ⟨k', List.mem_map.mpr ⟨(k', v), hrest, rfl⟩, by simp⟩
        rw [this] at hd
        cases hd.1
      · rw [lookupKey, if_neg hk]
        exact ih k v hd.2 hrest

theorem filter_comp {α : Type} (φ ψ : α → Bool) : ∀ (l : List α),
    (l.filter φ).filter ψ = l.filter (fun a => φ a && ψ a) := by
  intro l
  induction l with
  | nil => rfl
  | cons a l ih =>
    by_cases hφ : φ a = true <;> by_cases hψ : ψ a = true <;>
      simp [List.filter_cons, hφ, hψ, ih]

theorem assignJs_fold : ∀ (l : List (String × Json)) (pre : List (String × JsVal))
    (k : String) (v0 : JsVal),
    distinctKeys (l.map Prod.fst) = true →
    (∀ p ∈ pre, p.1 ≠ k ∧ ∀ q ∈ l, q.1 ≠ p.1) →
    (∀ v, (k, v) ∈ l → JsVal.json v = v0) →
    List.foldl (fun a p => assignJs a p.1 p.2)
        ((k, v0) :: pre) (l.map (fun p => (p.1, JsVal.json p.2))) =
      (k, v0) :: (pre ++ (l.filter (fun p => !(p.1 == k))).map
        (fun p => (p.1, JsVal.json p.2))) := by
  intro l
  induction l with
  | nil => intro pre k v0 _ _ _; simp
  | cons p l ih =>
    intro pre k v0 hd hpre hcoh
    rcases p with ⟨a, w⟩
    simp only [List.map_cons, distinctKeys_cons, Bool.and_eq_true,
      Bool.not_eq_true'] at hd
    rw [List.map_cons, List.foldl_cons]
    by_cases ha : a = k
    · subst ha
      have hv0 : JsVal.json w = v0 := hcoh w (List.mem_cons_self _ _)
      have hstep : assignJs ((a, v0) :: pre) a (JsVal.json w) = (a, v0) :: pre := by
        rw [assignJs, if_pos rfl, hv0]
      rw [hstep]
      have hcoh' : ∀ v, (a, v) ∈ l → JsVal.json v = v0 := by
        intro v hv
        exfalso
        have : (l.map Prod.fst).contains a = true :=
          List.contains_iff_exists_mem_beq.mpr
            ⟨a, List.mem_map.mpr ⟨(a, v), hv, rfl⟩, by simp⟩
        rw [this] at hd
        cases hd.1
      have hpre' : ∀ p ∈ pre, p.1 ≠ a ∧ ∀ q ∈ l, q.1 ≠ p.1 := by
        intro p hp
        exact ⟨(hpre p hp).1, fun q hq => (hpre p hp).2 q (List.mem_cons_of_mem _ hq)⟩
      rw [ih pre a v0 hd.2 hpre' hcoh']
      simp [List.filter_cons]
    · have hstep : assignJs ((k, v0) :: pre) a (JsVal.json w) =
          (k, v0) :: (pre ++ [(a, JsVal.json w)]) := by
        rw [assignJs, if_neg (fun h => ha h.symm),
          assignJs_not_mem pre a (JsVal.json w)
            (fun q hq => Ne.symm ((hpre q hq).2 (a, w) (List.mem_cons_self _ _)))]
      rw [hstep]
      have hpre' : ∀ p ∈ pre ++ [(a, JsVal.json w)], p.1 ≠ k ∧ ∀ q ∈ l, q.1 ≠ p.1 := by
        intro p hp
        rcases List.mem_append.mp hp with hin | hone
        · exact ⟨(hpre p hin).1, fun q hq => (hpre p hin).2 q (List.mem_cons_of_mem _ hq)⟩
        · rcases List.mem_singleton.mp hone with rfl
          refine ⟨ha, ?_⟩
          intro q hq hqa
          have : (l.map Prod.fst).contains a = true :=
            List.contains_iff_exists_mem_beq.mpr
              ⟨q.1, List.mem_map.mpr ⟨q, hq, rfl⟩, by simp [hqa]⟩
          rw [this] at hd
          cases hd.1
      have hcoh' : ∀ v, (k, v) ∈ l → JsVal.json v = v0 := by
        intro v hv
        exact hcoh v (List.mem_cons_of_mem _ hv)
      rw [ih (pre ++ [(a, JsVal.json w)]) k v0 hd.2 hpre' hcoh']
      have hfa : (!(a == k)) = true := by simpa using ha
      simp [List.filter_cons, hfa]

theorem wfJ_entries_distinct (d : Json) (hw : wfJ d = true) :
    distinctKeys ((jEntries d).map Prod.fst) = true := by
  cases d <;> simp only [jEntries] <;> try rfl
  rename_i l
  rw [wfJ, Bool.and_eq_true] at hw
  exact hw.1

/-- C9, counterexample: on a file holding the object with keys a, b, c (in
that order), `get("a", "c", "b")` returns the entries in DATA order
a, b, c, not in the argument order a, c, b: the returned key order
["a", "b", "c"] differs from the requested order ["a", "c", "b"]. -/
theorem getM_arg_order_cex :
    (getMStore demoCfg ⟨some "\x7b\"a\": 1, \"b\": 2, \"c\": 3\x7d", none, []⟩
        "a" ["c", "b"]).2 =
      Except.ok [("a", JsVal.json (Json.num 1)), ("b", JsVal.json (Json.num 2)),
        ("c", JsVal.json (Json.num 3))] ∧
    [("a" : String), "b", "c"] ≠ ["a", "c", "b"] :=
  ⟨rfl, by decide⟩

/-- C9, amended: `get(key, ...restKeys)` reads once and returns a new
object whose first entry is the primary key (with `data[key]`, `undefined`
when absent) and whose remaining entries are the OTHER requested keys in
the order they appear in the freshly read DATA (insertion order), not in
the order the arguments were given; keys not present in the data are
omitted (except the primary one) rather than set to `undefined`. -/
theorem getM_data_order (cfg : StoreCfg) (fs : FS) (s : String) (j d : Json)
    (hf : fs.file = some s) (hp : parseJson s = some j)
    (hc : cfg.schema.check j = some d) (hw : wfJ d = true)
    (k : String) (ks : List String) :
    getMStore cfg fs k ks =
      (fs, Except.ok ((k, jGet d k) ::
        ((jEntries d).filter (fun p => ks.contains p.1 && !(p.1 == k))).map
          (fun p => (p.1, JsVal.json p.2)))) := by
  rcases fs with ⟨f, b, l⟩
  simp only at hf
  subst hf
  have hdis : distinctKeys (((jEntries d).filter
      (fun p => ks.contains p.1)).map Prod.fst) = true :=
    distinctKeys_filter _ _ (wfJ_entries_distinct d hw)
  have hcoh : ∀ v, (k, v) ∈ (jEntries d).filter (fun p => ks.contains p.1) →
      JsVal.json v = jGet d k := by
    intro v hv
    have hmem := List.mem_of_mem_filter hv
    cases d with
    | obj entries =>
      have hlk : lookupKey entries k = some v :=
        lookupKey_of_mem entries k v
          (by simpa [jEntries] using wfJ_entries_distinct (Json.obj entries) hw)
          (by simpa [jEntries] using hmem)
      simp [jGet, hlk]
    | null => cases (by simpa [jEntries] using hmem : (k, v) ∈ ([] : List (String × Json)))
    | bool bb => cases (by simpa [jEntries] using hmem : (k, v) ∈ ([] : List (String × Json)))
    | num n => cases (by simpa [jEntries] using hmem : (k, v) ∈ ([] : List (String × Json)))
    | str ss => cases (by simpa [jEntries] using hmem : (k, v) ∈ ([] : List (String × Json)))
    | arr l2 => cases (by simpa [jEntries] using hmem : (k, v) ∈ ([] : List (String × Json)))
  have hfold := assignJs_fold ((jEntries d).filter (fun p => ks.contains p.1)) []
    k (jGet d k) hdis (by intro p hp; cases hp) hcoh
  simp only [getMStore, getMCore, readCore, hp, hc, applyCore, fromEntriesJs,
    List.foldl_cons]
  rw [show assignJs [] k (jGet d k) = [(k, jGet d k)] from rfl] at *
  rw [hfold, filter_comp]
  simp

theorem getM_data_order_witness :
    parseJson "\x7b\"a\": 1, \"b\": 2, \"c\": 3\x7d" =
      some (Json.obj [("a", Json.num 1), ("b", Json.num 2), ("c", Json.num 3)]) ∧
    demoCfg.schema.check (Json.obj [("a", Json.num 1), ("b", Json.num 2), ("c", Json.num 3)]) =
      some (Json.obj [("a", Json.num 1), ("b", Json.num 2), ("c", Json.num 3)]) ∧
    wfJ (Json.obj [("a", Json.num 1), ("b", Json.num 2), ("c", Json.num 3)]) = true ∧
    getMStore demoCfg ⟨some "\x7b\"a\": 1, \"b\": 2, \"c\": 3\x7d", none, []⟩ "b" ["c"] =
      (⟨some "\x7b\"a\": 1, \"b\": 2, \"c\": 3\x7d", none, []⟩,
        Except.ok ((("b" : String),
            jGet (Json.obj [("a", Json.num 1), ("b", Json.num 2), ("c", Json.num 3)]) "b") ::
          ((jEntries (Json.obj [("a", Json.num 1), ("b", Json.num 2),
              ("c", Json.num 3)])).filter
            (fun p => (["c"] : List String).contains p.1 && !(p.1 == "b"))).map
            (fun p => (p.1, JsVal.json p.2)))) :=
  ⟨rfl, rfl, rfl,
    getM_data_order demoCfg ⟨some "\x7b\"a\": 1, \"b\": 2, \"c\": 3\x7d", none, []⟩ _ _ _
      rfl rfl rfl rfl "b" ["c"]⟩
